import Mathlib

/-!
# String-art generator (`src/main.cpp`): chord cache and greedy pin selection

A shallow embedding of the class `StringArtGenerator`:

* `calculatePinCoords` (lines 34-44) places the pins on a circle; it is the
  only definition over the real numbers (`cos`, `sin`), hence not executable;
* `precalculateAllPotentialLines` (lines 46-73) fills the two flat footprint
  tables `lineCacheY` / `lineCacheX`;
* `getLineErr` (lines 75-81) sums the residual buffer along a footprint;
* `generateStringArt` (lines 101-151) is the greedy selection loop;
* `saveSequenceToFile` (lines 172-184) is modelled by the text it writes and
  `saveAnimation` (lines 186-226) by the number of frames it writes.

Modelling conventions.

* `vector<T>` is `List T`; `v[i]` is `v.getD i default` and `v[i] = x` is
  `v.set i x`.
* The `cv::Mat` of `uchar` is the row-major list of its `imgSize * imgSize`
  pixels.  Reading outside the grid is undefined in the source; the model reads
  `0` there and a write outside the grid changes nothing.
* The compile-time constants are gathered in `Params`, so that the algorithm
  can be run on small instances; `defaultParams` holds the values of the source.
  `int` arithmetic is modelled on `Nat` / `Int` (no overflow occurs for the
  values of the source: the largest index is `PINS * PINS = 90000`).
* `double` values are modelled as real numbers (rounding is not modelled).  Those
  that hold integers (pin coordinates after `floor`, sums of pixel values) are
  `Int` / `Nat`; `floor(sqrt(n))` and `floor(x0 + (k / d) * (x1 - x0))` are
  computed in integer arithmetic, and `floorSqrt_eq_floor_real_sqrt` and
  `lineSample_eq_floor_real` show that these are the real-number values.
* `bestPin = -1` is `none`; the `break` of line 131 is a round returning `none`.
-/

namespace StringArt

/-! ## Constants (lines 13-16) -/

/-- Number of pins around the circle. -/
def PINS : Nat := 300

/-- Minimum distance between pins. -/
def MIN_DISTANCE : Nat := 30

/-- Maximum number of lines to draw. -/
def MAX_LINES : Nat := 3500

/-- Weight removed from the residual along a drawn line. -/
def LINE_WEIGHT : Nat := 30

/-- The constants read by the cache builder and by the selector. -/
structure Params where
  PINS : Nat
  MIN_DISTANCE : Nat
  MAX_LINES : Nat
  LINE_WEIGHT : Nat
deriving DecidableEq, Repr

/-- The values compiled into `main.cpp`. -/
def defaultParams : Params :=
  { PINS := PINS, MIN_DISTANCE := MIN_DISTANCE, MAX_LINES := MAX_LINES, LINE_WEIGHT := LINE_WEIGHT }

/-! ## Data (lines 20-32) -/

/-- `struct Coord`: the two fields hold floored values, hence integers. -/
structure Coord where
  x : Int
  y : Int
deriving DecidableEq, Repr

/-- The two footprint tables, indexed by `a * PINS + b`. -/
structure LineCache where
  lineCacheY : List (List Int)
  lineCacheX : List (List Int)
deriving DecidableEq, Repr

/-- The members of `StringArtGenerator` that `generateStringArt` reads. -/
structure StringArtGenerator where
  imgSize : Nat
  pinCoords : List Coord
  lineCacheY : List (List Int)
  lineCacheX : List (List Int)
  sourceImage : List Nat
deriving DecidableEq, Repr

/-! ## Pixel access: `Mat::at<uchar>(row, col)` -/

/-- Flat position of pixel `(row, col)` in an `imgSize * imgSize` grid, when it lies in the grid. -/
def matIndex (imgSize : Nat) (row col : Int) : Option Nat :=
  if 0 ≤ row ∧ row < imgSize ∧ 0 ≤ col ∧ col < imgSize then
    some (row.toNat * imgSize + col.toNat)
  else none

/-- Read `m.at<uchar>(row, col)`. -/
def matAt (imgSize : Nat) (m : List Nat) (row col : Int) : Nat :=
  match matIndex imgSize row col with
  | some k => m.getD k 0
  | none => 0

/-- Write `m.at<uchar>(row, col) = v`. -/
def matSet (imgSize : Nat) (m : List Nat) (row col : Int) (v : Nat) : List Nat :=
  match matIndex imgSize row col with
  | some k => m.set k v
  | none => m

/-! ## `precalculateAllPotentialLines` (lines 46-73) -/

/-- Greatest `k` with `k * k ≤ n`: `floor(sqrt(n))` for an integer `n`. -/
def floorSqrt (n : Nat) : Nat :=
  Nat.findGreatest (fun k => k * k ≤ n) n

/-- The samples `floor(a0 + (k / d) * (a1 - a0))` for `k = 0, ..., d - 1` (lines 61-65). -/
def lineSamples (a0 a1 : Int) (d : Nat) : List Int :=
  (List.range d).map (fun (k : Nat) => a0 + ((k : Int) * (a1 - a0)) / (d : Int))

/-- The value `d` of line 57. -/
def lineLength (c0 c1 : Coord) : Nat :=
  floorSqrt (((c1.x - c0.x) * (c1.x - c0.x) + (c1.y - c0.y) * (c1.y - c0.y)).toNat)

/-- Body of the inner loop (lines 52-70) for the pair `(i, j)`. -/
def storeLine (p : Params) (pinCoords : List Coord) (cache : LineCache) (i j : Nat) : LineCache :=
  let c0 := pinCoords.getD i ⟨0, 0⟩
  let c1 := pinCoords.getD j ⟨0, 0⟩
  let d := lineLength c0 c1
  let xs := lineSamples c0.x c1.x d
  let ys := lineSamples c0.y c1.y d
  { lineCacheY := (cache.lineCacheY.set (j * p.PINS + i) ys).set (i * p.PINS + j) ys
    lineCacheX := (cache.lineCacheX.set (j * p.PINS + i) xs).set (i * p.PINS + j) xs }

/-- Values taken by `j` in the inner loop `for (j = i + MIN_DISTANCE; j < PINS; j++)`. -/
def innerRange (p : Params) (i : Nat) : List Nat :=
  List.range' (i + p.MIN_DISTANCE) (p.PINS - (i + p.MIN_DISTANCE))

/-- The cache before any pair is processed: `resize(PINS * PINS)` of two empty tables. -/
def emptyCache (p : Params) : LineCache :=
  { lineCacheY := List.replicate (p.PINS * p.PINS) []
    lineCacheX := List.replicate (p.PINS * p.PINS) [] }

/-- The cache after `resize(PINS * PINS)` and the two nested loops. -/
def precalculateAllPotentialLines (p : Params) (pinCoords : List Coord) : LineCache :=
  (List.range p.PINS).foldl
    (fun cache i => (innerRange p i).foldl (fun cache j => storeLine p pinCoords cache i j) cache)
    (emptyCache p)

/-- The pairs `(i, j)` for which the loop body runs, in program order. -/
def loopPairs (p : Params) : List (Nat × Nat) :=
  (List.range p.PINS).flatMap (fun i => (innerRange p i).map (fun j => (i, j)))

/-- The table positions assigned by the loop body for the pair `(i, j)` (lines 67-70). -/
def writtenBy (p : Params) (ij : Nat × Nat) : List Nat :=
  [ij.2 * p.PINS + ij.1, ij.1 * p.PINS + ij.2]

/-- All table positions that `precalculateAllPotentialLines` assigns. -/
def writtenIndices (p : Params) : List Nat :=
  (loopPairs p).flatMap (writtenBy p)

/-- A footprint is stored under key `(a, b)`: position `a * PINS + b` is assigned by the loops. -/
def stored (p : Params) (a b : Nat) : Prop :=
  a < p.PINS ∧ b < p.PINS ∧ a * p.PINS + b ∈ writtenIndices p

instance (p : Params) (a b : Nat) : Decidable (stored p a b) := by
  unfold stored; infer_instance

/-- Circular pin-index distance `min(|i - j|, PINS - |i - j|)`. -/
def circDist (p : Params) (i j : Nat) : Nat :=
  min (max i j - min i j) (p.PINS - (max i j - min i j))

/-- The generator built by the constructor (lines 97-98) from given pin coordinates. -/
def mkGenerator (p : Params) (imgSize : Nat) (pinCoords : List Coord) (sourceImage : List Nat) :
    StringArtGenerator :=
  let cache := precalculateAllPotentialLines p pinCoords
  { imgSize := imgSize, pinCoords := pinCoords
    lineCacheY := cache.lineCacheY, lineCacheX := cache.lineCacheX
    sourceImage := sourceImage }

/-! ## `getLineErr` (lines 75-81) -/

/-- Sum of the buffer over the footprint `(coords1[i], coords2[i])`. -/
def getLineErr (imgSize : Nat) (err : List Nat) (coords1 coords2 : List Int) : Nat :=
  (coords1.zip coords2).foldl (fun sum rc => sum + matAt imgSize err rc.1 rc.2) 0

/-! ## `generateStringArt` (lines 101-151) -/

/-- The local variables of `generateStringArt` that live across rounds. -/
structure GenState where
  error : List Nat
  currentPin : Nat
  lastPins : List Nat
  lineSequence : List Nat
deriving DecidableEq, Repr

/-- Values taken by `offset` in the scan loop of line 114. -/
def offsets (p : Params) : List Nat :=
  List.range' p.MIN_DISTANCE (p.PINS - p.MIN_DISTANCE - p.MIN_DISTANCE)

/-- The pin tested at `offset` (line 115). -/
def testPin (p : Params) (currentPin offset : Nat) : Nat :=
  (currentPin + offset) % p.PINS

/-- The score computed at lines 122-123 for `testPin`. -/
def lineErrOf (p : Params) (g : StringArtGenerator) (st : GenState) (pin : Nat) : Nat :=
  getLineErr g.imgSize st.error
    (g.lineCacheY.getD (pin * p.PINS + st.currentPin) [])
    (g.lineCacheX.getD (pin * p.PINS + st.currentPin) [])

/-- One iteration of the scan loop (lines 115-128) on `(bestPin, maxErr)`;
`bestPin = -1` is `none`. -/
def scanStep (p : Params) (g : StringArtGenerator) (st : GenState)
    (acc : Option Nat × Nat) (offset : Nat) : Option Nat × Nat :=
  if testPin p st.currentPin offset ∈ st.lastPins then acc
  else if lineErrOf p g st (testPin p st.currentPin offset) > acc.2 then
    (some (testPin p st.currentPin offset), lineErrOf p g st (testPin p st.currentPin offset))
  else acc

/-- The scan loop (lines 111-129): final `(bestPin, maxErr)`. -/
def selectBestPin (p : Params) (g : StringArtGenerator) (st : GenState) : Option Nat × Nat :=
  (offsets p).foldl (scanStep p g st) (none, 0)

/-- The value stored by line 137: `max(0, v - LINE_WEIGHT)` converted to `uchar`. -/
def reduced (p : Params) (v : Nat) : Nat :=
  (max 0 ((v : Int) - (p.LINE_WEIGHT : Int))).toNat % 256

/-- The update loop (lines 136-139) along the footprint `(ys[i], xs[i])`. -/
def drawLine (p : Params) (imgSize : Nat) (err : List Nat) (ys xs : List Int) : List Nat :=
  (ys.zip xs).foldl
    (fun e rc => matSet imgSize e rc.1 rc.2 (reduced p (matAt imgSize e rc.1 rc.2))) err

/-- One round of the outer loop (lines 111-143); `none` is the `break` of line 131. -/
def round (p : Params) (g : StringArtGenerator) (st : GenState) : Option GenState :=
  match (selectBestPin p g st).1 with
  | none => none
  | some bestPin =>
    some
      { error := drawLine p g.imgSize st.error
          (g.lineCacheY.getD (bestPin * p.PINS + st.currentPin) [])
          (g.lineCacheX.getD (bestPin * p.PINS + st.currentPin) [])
        currentPin := bestPin
        lastPins := st.lastPins.tail ++ [bestPin]
        lineSequence := st.lineSequence ++ [bestPin] }

/-- The outer loop run for at most `n` rounds from `st`. -/
def runRounds (p : Params) (g : StringArtGenerator) : Nat → GenState → GenState
  | 0, st => st
  | n + 1, st =>
    match round p g st with
    | none => st
    | some st' => runRounds p g n st'

/-- The state before the first round (lines 102-107); the residual is `255 - sourceImage`. -/
def initState (g : StringArtGenerator) : GenState :=
  { error := g.sourceImage.map (fun px => 255 - px)
    currentPin := 0
    lastPins := List.replicate 20 0
    lineSequence := [0] }

/-- The returned `lineSequence`. -/
def generateStringArt (p : Params) (g : StringArtGenerator) : List Nat :=
  (runRounds p g p.MAX_LINES (initState g)).lineSequence

/-! ## A small instance used to exercise the definitions -/

/-- Eight pins on a circle of radius 3 centred at (4, 4), floored. -/
def pins8 : List Coord :=
  [⟨7, 4⟩, ⟨6, 6⟩, ⟨4, 7⟩, ⟨1, 6⟩, ⟨1, 4⟩, ⟨1, 1⟩, ⟨3, 1⟩, ⟨6, 1⟩]

/-- Small constants: 8 pins, minimum distance 2, 3 rounds, weight 30. -/
def params8 : Params := { PINS := 8, MIN_DISTANCE := 2, MAX_LINES := 3, LINE_WEIGHT := 30 }

/-- An 8 x 8 source image that is black everywhere. -/
def black8 : List Nat := List.replicate 64 0

/-- The generator for the small instance on the black image. -/
def gen8 : StringArtGenerator := mkGenerator params8 8 pins8 black8

/-- The state left by one round of the small instance from its initial state. -/
def afterRound8 : GenState := runRounds params8 gen8 1 (initState gen8)

/-! ## The constants of the source on a white 100 x 100 grid -/

/-- The x coordinates `floor(50 + 49 * cos(2 * pi * i / 300))` that `calculatePinCoords` produces
for a 100 x 100 image and 300 pins. -/
def pins100X : List Int :=
  [99, 98, 98, 98, 98, 98, 98, 98, 98, 98, 97, 97, 97, 97, 96, 96, 96, 95, 95, 95, 94, 94, 93, 93,
   92, 92, 91, 91, 90, 90, 89, 89, 88, 87, 87, 86, 85, 85, 84, 83, 82, 82, 81, 80, 79, 78, 77, 77,
   76, 75, 74, 73, 72, 71, 70, 69, 68, 68, 67, 66, 65, 64, 63, 62, 61, 60, 59, 58, 57, 56, 55, 54,
   53, 52, 51, 50, 48, 47, 46, 45, 44, 43, 42, 41, 40, 39, 38, 37, 36, 35, 34, 33, 32, 31, 31, 30,
   29, 28, 27, 26, 25, 24, 23, 22, 22, 21, 20, 19, 18, 17, 17, 16, 15, 14, 14, 13, 12, 12, 11, 10,
   10, 9, 9, 8, 8, 7, 7, 6, 6, 5, 5, 4, 4, 4, 3, 3, 3, 2, 2, 2, 2, 1, 1, 1, 1, 1, 1, 1, 1, 1, 1,
   1, 1, 1, 1, 1, 1, 1, 1, 1, 2, 2, 2, 2, 3, 3, 3, 4, 4, 4, 5, 5, 6, 6, 7, 7, 8, 8, 9, 9, 10, 10,
   11, 12, 12, 13, 14, 14, 15, 16, 17, 17, 18, 19, 20, 21, 22, 22, 23, 24, 25, 26, 27, 28, 29, 30,
   31, 31, 32, 33, 34, 35, 36, 37, 38, 39, 40, 41, 42, 43, 44, 45, 46, 47, 48, 49, 51, 52, 53, 54,
   55, 56, 57, 58, 59, 60, 61, 62, 63, 64, 65, 66, 67, 68, 68, 69, 70, 71, 72, 73, 74, 75, 76, 77,
   77, 78, 79, 80, 81, 82, 82, 83, 84, 85, 85, 86, 87, 87, 88, 89, 89, 90, 90, 91, 91, 92, 92, 93,
   93, 94, 94, 95, 95, 95, 96, 96, 96, 97, 97, 97, 97, 98, 98, 98, 98, 98, 98, 98, 98, 98]

/-- The y coordinates `floor(50 + 49 * sin(2 * pi * i / 300))` for the same image. -/
def pins100Y : List Int :=
  [50, 51, 52, 53, 54, 55, 56, 57, 58, 59, 60, 61, 62, 63, 64, 65, 66, 67, 68, 68, 69, 70, 71, 72,
   73, 74, 75, 76, 77, 77, 78, 79, 80, 81, 82, 82, 83, 84, 85, 85, 86, 87, 87, 88, 89, 89, 90, 90,
   91, 91, 92, 92, 93, 93, 94, 94, 95, 95, 95, 96, 96, 96, 97, 97, 97, 97, 98, 98, 98, 98, 98, 98,
   98, 98, 98, 99, 98, 98, 98, 98, 98, 98, 98, 98, 98, 97, 97, 97, 97, 96, 96, 96, 95, 95, 95, 94,
   94, 93, 93, 92, 92, 91, 91, 90, 90, 89, 89, 88, 87, 87, 86, 85, 85, 84, 83, 82, 82, 81, 80, 79,
   78, 77, 77, 76, 75, 74, 73, 72, 71, 70, 69, 68, 68, 67, 66, 65, 64, 63, 62, 61, 60, 59, 58, 57,
   56, 55, 54, 53, 52, 51, 50, 48, 47, 46, 45, 44, 43, 42, 41, 40, 39, 38, 37, 36, 35, 34, 33, 32,
   31, 31, 30, 29, 28, 27, 26, 25, 24, 23, 22, 22, 21, 20, 19, 18, 17, 17, 16, 15, 14, 14, 13, 12,
   12, 11, 10, 10, 9, 9, 8, 8, 7, 7, 6, 6, 5, 5, 4, 4, 4, 3, 3, 3, 2, 2, 2, 2, 1, 1, 1, 1, 1, 1,
   1, 1, 1, 1, 1, 1, 1, 1, 1, 1, 1, 1, 1, 2, 2, 2, 2, 3, 3, 3, 4, 4, 4, 5, 5, 6, 6, 7, 7, 8, 8, 9,
   9, 10, 10, 11, 12, 12, 13, 14, 14, 15, 16, 17, 17, 18, 19, 20, 21, 22, 22, 23, 24, 25, 26, 27,
   28, 29, 30, 31, 31, 32, 33, 34, 35, 36, 37, 38, 39, 40, 41, 42, 43, 44, 45, 46, 47, 48]

/-- The pin coordinates of a 100 x 100 image with 300 pins. -/
def pins100 : List Coord := List.zipWith Coord.mk pins100X pins100Y

/-- A uniformly white 100 x 100 source grid. -/
def white100 : List Nat := List.replicate (100 * 100) 255

/-- The generator with the constants of the source on the white 100 x 100 grid. -/
def whiteGen100 : StringArtGenerator := mkGenerator defaultParams 100 pins100 white100

/-! ## Auxiliary definitions for the statements -/

/-- The row samples that the loop body computes for the pair `(i, j)` (lines 52-65). -/
def footprintY (pinCoords : List Coord) (i j : Nat) : List Int :=
  lineSamples (pinCoords.getD i ⟨0, 0⟩).y (pinCoords.getD j ⟨0, 0⟩).y
    (lineLength (pinCoords.getD i ⟨0, 0⟩) (pinCoords.getD j ⟨0, 0⟩))

/-- The column samples that the loop body computes for the pair `(i, j)` (lines 52-65). -/
def footprintX (pinCoords : List Coord) (i j : Nat) : List Int :=
  lineSamples (pinCoords.getD i ⟨0, 0⟩).x (pinCoords.getD j ⟨0, 0⟩).x
    (lineLength (pinCoords.getD i ⟨0, 0⟩) (pinCoords.getD j ⟨0, 0⟩))

/-- The pins for which the scan loop reaches lines 122-123 and computes a score, in scan order. -/
def scoredPins (p : Params) (st : GenState) : List Nat :=
  ((offsets p).map (testPin p st.currentPin)).filter (fun pin => decide (pin ∉ st.lastPins))

/-- Lines 125-128: the update of `(bestPin, maxErr)` by a scored pin. -/
def scoreStep (p : Params) (g : StringArtGenerator) (st : GenState)
    (acc : Option Nat × Nat) (pin : Nat) : Option Nat × Nat :=
  if lineErrOf p g st pin > acc.2 then (some pin, lineErrOf p g st pin) else acc

/-- The tables hold, at every key `(a, b)`, the footprint of the ordered pair
`(min a b, max a b)` when that pair is among the processed pairs `done`, and nothing otherwise. -/
def CacheInv (p : Params) (pinCoords : List Coord) (done : List (Nat × Nat))
    (cache : LineCache) : Prop :=
  cache.lineCacheY.length = p.PINS * p.PINS ∧ cache.lineCacheX.length = p.PINS * p.PINS ∧
  ∀ a b, a < p.PINS → b < p.PINS →
    cache.lineCacheY.getD (a * p.PINS + b) [] =
      (if (min a b, max a b) ∈ done then footprintY pinCoords (min a b) (max a b) else []) ∧
    cache.lineCacheX.getD (a * p.PINS + b) [] =
      (if (min a b, max a b) ∈ done then footprintX pinCoords (min a b) (max a b) else [])

/-- The window holds the last 20 entries of the sequence, padded in front with the initial zeros,
and no entry of the sequence repeats one of the (at most 20) entries just before it. -/
def WindowInv (st : GenState) : Prop :=
  st.lastPins.length = 20 ∧
  (∃ pre, List.replicate 19 0 ++ st.lineSequence = pre ++ st.lastPins) ∧
  ∀ r k, 1 ≤ k → k ≤ 20 → k ≤ r → r < st.lineSequence.length →
    st.lineSequence[r]? ≠ st.lineSequence[r - k]?

/-! ## `saveSequenceToFile` (lines 172-184) and `saveAnimation` (lines 186-226) -/

/-- Maximum frames for animation (line 18). -/
def MAX_FRAMES : Nat := 50

/-- Body of the loop of lines 178-183: entry `i` in decimal, followed by a comma unless `i` is
the last index. -/
def writeEntry (sequence : List Nat) (out : String) (i : Nat) : String :=
  if i < sequence.length - 1 then out ++ toString (sequence.getD i 0) ++ ","
  else out ++ toString (sequence.getD i 0)

/-- The text sent to the stream by `saveSequenceToFile` (the stream having been opened). -/
def saveSequenceToFile (sequence : List Nat) : String :=
  (List.range sequence.length).foldl (writeEntry sequence) ""

/-- The stride of line 191: `max(1, sequence.size() / MAX_FRAMES)`. -/
def frameStep (maxFrames : Nat) (sequence : List Nat) : Nat :=
  max 1 (sequence.length / maxFrames)

/-- The final value of `frameCount` (lines 207-222), the video writer having been opened: one
frame is written for each `i` in `[1, size)` with `i % frameStep == 0` or `i == size - 1`. -/
def saveAnimation (maxFrames : Nat) (sequence : List Nat) : Nat :=
  (List.range' 1 (sequence.length - 1)).foldl
    (fun frameCount i =>
      if i % frameStep maxFrames sequence = 0 ∨ i = sequence.length - 1 then frameCount + 1
      else frameCount)
    0

/-- A sequence of 99 pins, each 31 pins after the previous one on the circle of 300. -/
def sequence99 : List Nat := (List.range 99).map (fun i => (i * 31) % 300)

/-- An 8 x 8 source image, white except for two pixels of value 245 (residual 10): `(1, 2)` on
the chord of pins 0 and 5, and `(3, 3)` on the chord of pins 5 and 1. -/
def twoDots8 : List Nat :=
  ((List.replicate 64 255).set (1 * 8 + 2) 245).set (3 * 8 + 3) 245

/-- The generator for the small instance on `twoDots8`. -/
def genDots8 : StringArtGenerator := mkGenerator params8 8 pins8 twoDots8

/-- The state of the run on `twoDots8` before its second round. -/
def dotsBefore : GenState := runRounds params8 genDots8 1 (initState genDots8)

/-- The state of the run on `twoDots8` after its second round. -/
def dotsAfter : GenState := runRounds params8 genDots8 2 (initState genDots8)

/-- The footprint drawn by a round that goes from the pin `fromPin` to the pin `toPin`: the
coordinate pairs `(lineCacheY[index][i], lineCacheX[index][i])` with
`index = toPin * PINS + fromPin` (lines 134-139). -/
def winningFootprint (p : Params) (g : StringArtGenerator) (fromPin toPin : Nat) :
    List (Int × Int) :=
  (g.lineCacheY.getD (toPin * p.PINS + fromPin) []).zip
    (g.lineCacheX.getD (toPin * p.PINS + fromPin) [])

/-- The current pin is the last entry of the sequence, every entry is a pin index below `PINS`,
and consecutive entries are at circular distance at least `MIN_DISTANCE`. -/
def SeqInv (p : Params) (st : GenState) : Prop :=
  st.currentPin < p.PINS ∧
  st.lineSequence.getLast? = some st.currentPin ∧
  (∀ x ∈ st.lineSequence, x < p.PINS) ∧
  ∀ r a b, st.lineSequence[r]? = some a → st.lineSequence[r + 1]? = some b →
    p.MIN_DISTANCE ≤ circDist p a b

/-! ## `calculatePinCoords` (lines 34-44), with `double` modelled as real numbers -/

/-- The angle `2 * M_PI * i / PINS` of pin `i` (line 40). -/
noncomputable def pinAngle (N i : Nat) : ℝ :=
  2 * Real.pi * (i : ℝ) / (N : ℝ)

/-- The coordinate of pin `i` (lines 35-42): `floor(center + radius * cos(angle))` and
`floor(center + radius * sin(angle))` with `center = imgSize / 2.0`, `radius = center - 1`. -/
noncomputable def pinCoord (imgSize N i : Nat) : Coord :=
  { x := ⌊(imgSize : ℝ) / 2 + ((imgSize : ℝ) / 2 - 1) * Real.cos (pinAngle N i)⌋
    y := ⌊(imgSize : ℝ) / 2 + ((imgSize : ℝ) / 2 - 1) * Real.sin (pinAngle N i)⌋ }

/-- The vector `pinCoords` after `resize(PINS)` and the loop over `i` in `[0, PINS)`. -/
noncomputable def calculatePinCoords (imgSize N : Nat) : List Coord :=
  (List.range N).map (pinCoord imgSize N)

/-- The generator that the constructor builds for an image of side `imgSize` (lines 97-98). -/
noncomputable def realGenerator (p : Params) (imgSize : Nat) (sourceImage : List Nat) :
    StringArtGenerator :=
  mkGenerator p imgSize (calculatePinCoords imgSize p.PINS) sourceImage

/-! ## The integer arithmetic of the rasteriser agrees with the real-number formulas -/

theorem floorSqrt_eq_sqrt (n : Nat) : floorSqrt n = Nat.sqrt n := by
  unfold floorSqrt
  have h0 : (fun k => k * k ≤ n) 0 := Nat.zero_le _
  have hspec : Nat.findGreatest (fun k => k * k ≤ n) n * Nat.findGreatest (fun k => k * k ≤ n) n ≤ n :=
    Nat.findGreatest_spec (P := fun k => k * k ≤ n) (Nat.zero_le n) h0
  have hle : Nat.findGreatest (fun k => k * k ≤ n) n ≤ n := Nat.findGreatest_le n
  rw [Nat.eq_sqrt]
  refine ⟨hspec, ?_⟩
  by_cases hlt : Nat.findGreatest (fun k => k * k ≤ n) n + 1 ≤ n
  · have := Nat.findGreatest_is_greatest (P := fun k => k * k ≤ n) (Nat.lt_succ_self _) hlt
    exact Nat.lt_of_not_le this
  · have hn : n ≤ Nat.findGreatest (fun k => k * k ≤ n) n := by omega
    calc n ≤ Nat.findGreatest (fun k => k * k ≤ n) n := hn
      _ < Nat.findGreatest (fun k => k * k ≤ n) n + 1 := Nat.lt_succ_self _
      _ ≤ (Nat.findGreatest (fun k => k * k ≤ n) n + 1) *
          (Nat.findGreatest (fun k => k * k ≤ n) n + 1) := Nat.le_mul_self _

/-- Line 57 over the reals: `floorSqrt n` is `floor(sqrt(n))`. -/
theorem floorSqrt_eq_floor_real_sqrt (n : Nat) : (floorSqrt n : Int) = ⌊Real.sqrt (n : ℝ)⌋ := by
  rw [floorSqrt_eq_sqrt, Real.floor_real_sqrt_eq_nat_sqrt]

/-- Lines 62-64 over the reals: each sample is `floor(a0 + (k / d) * (a1 - a0))`. -/
theorem lineSample_eq_floor_real (a0 a1 : Int) (d k : Nat) :
    a0 + ((k : Int) * (a1 - a0)) / (d : Int) =
      ⌊(a0 : ℝ) + ((k : ℝ) / (d : ℝ)) * ((a1 : ℝ) - (a0 : ℝ))⌋ := by
  have e : (a0 : ℝ) + ((k : ℝ) / (d : ℝ)) * ((a1 : ℝ) - (a0 : ℝ)) =
      (((a0 : ℚ) + (((k : Int) * (a1 - a0) : Int) : ℚ) / (d : ℚ) : ℚ) : ℝ) := by
    push_cast
    ring
  rw [e, Rat.floor_cast, Int.floor_int_add, Rat.floor_intCast_div_natCast]

theorem lineSamples_length (a0 a1 : Int) (d : Nat) : (lineSamples a0 a1 d).length = d := by
  simp [lineSamples]

theorem footprint_lengths_eq (pinCoords : List Coord) (i j : Nat) :
    (footprintY pinCoords i j).length = (footprintX pinCoords i j).length := by
  simp [footprintY, footprintX, lineSamples_length]

/-! ## Pixel access lemmas -/

theorem reduced_eq (p : Params) (v : Nat) : reduced p v = (v - p.LINE_WEIGHT) % 256 := by
  unfold reduced
  congr 1
  omega

theorem reduced_le (p : Params) (v : Nat) : reduced p v ≤ v := by
  rw [reduced_eq]
  exact le_trans (Nat.mod_le _ _) (Nat.sub_le _ _)

theorem getD_set_eq {α : Type} (l : List α) (i k : Nat) (v d : α) :
    (l.set i v).getD k d = if i = k ∧ i < l.length then v else l.getD k d := by
  simp only [List.getD_eq_getElem?_getD, List.getElem?_set]
  by_cases hik : i = k
  · subst hik
    by_cases hl : i < l.length
    · simp [hl]
    · simp [hl, List.getElem?_eq_none (Nat.le_of_not_lt hl)]
  · simp [hik]

theorem matSet_length (S : Nat) (m : List Nat) (r c : Int) (v : Nat) :
    (matSet S m r c v).length = m.length := by
  unfold matSet
  cases matIndex S r c <;> simp

theorem matSet_reduced_le (p : Params) (S : Nat) (m : List Nat) (r c : Int) (k : Nat) :
    (matSet S m r c (reduced p (matAt S m r c))).getD k 0 ≤ m.getD k 0 := by
  unfold matSet matAt
  cases h : matIndex S r c with
  | none => exact le_refl _
  | some i =>
    simp only [getD_set_eq]
    split
    · next hik => rw [← hik.1]; exact reduced_le p _
    · exact le_refl _

theorem drawLine_length (p : Params) (S : Nat) (ys xs : List Int) (err : List Nat) :
    (drawLine p S err ys xs).length = err.length := by
  unfold drawLine
  induction ys.zip xs generalizing err with
  | nil => rfl
  | cons rc rest ih => rw [List.foldl_cons, ih, matSet_length]

theorem drawLine_le (p : Params) (S : Nat) (ys xs : List Int) (err : List Nat) (k : Nat) :
    (drawLine p S err ys xs).getD k 0 ≤ err.getD k 0 := by
  unfold drawLine
  induction ys.zip xs generalizing err with
  | nil => exact le_refl _
  | cons rc rest ih =>
    rw [List.foldl_cons]
    exact le_trans (ih _) (matSet_reduced_le p S err rc.1 rc.2 k)

theorem all_le_iff_getD (m : List Nat) (b : Nat) :
    (∀ v ∈ m, v ≤ b) ↔ ∀ k, k < m.length → m.getD k 0 ≤ b := by
  constructor
  · intro h k hk
    have : m.getD k 0 = m[k] := by simp [List.getD_eq_getElem?_getD, List.getElem?_eq_getElem hk]
    rw [this]
    exact h _ (List.getElem_mem hk)
  · intro h v hv
    obtain ⟨k, hk, rfl⟩ := List.getElem_of_mem hv
    have := h k hk
    simpa [List.getD_eq_getElem?_getD, List.getElem?_eq_getElem hk] using this

/-! ## The outer loop, one round at a time -/

theorem round_error (p : Params) (g : StringArtGenerator) (st st' : GenState)
    (h : round p g st = some st') :
    ∃ bestPin, (selectBestPin p g st).1 = some bestPin ∧
      st'.error = drawLine p g.imgSize st.error
        (g.lineCacheY.getD (bestPin * p.PINS + st.currentPin) [])
        (g.lineCacheX.getD (bestPin * p.PINS + st.currentPin) []) ∧
      st'.currentPin = bestPin ∧
      st'.lastPins = st.lastPins.tail ++ [bestPin] ∧
      st'.lineSequence = st.lineSequence ++ [bestPin] := by
  unfold round at h
  cases hb : (selectBestPin p g st).1 with
  | none => rw [hb] at h; cases h
  | some b =>
    rw [hb] at h
    simp only [Option.some.injEq] at h
    subst h
    exact ⟨b, rfl, rfl, rfl, rfl, rfl⟩

theorem runRounds_of_none (p : Params) (g : StringArtGenerator) (st : GenState)
    (h : round p g st = none) (n : Nat) : runRounds p g n st = st := by
  cases n with
  | zero => rfl
  | succ n => simp [runRounds, h]

theorem runRounds_succ (p : Params) (g : StringArtGenerator) (n : Nat) (st : GenState) :
    runRounds p g (n + 1) st =
      match round p g (runRounds p g n st) with
      | none => runRounds p g n st
      | some st' => st' := by
  induction n generalizing st with
  | zero => simp [runRounds]
  | succ n ih =>
    cases h : round p g st with
    | none =>
      rw [runRounds_of_none p g st h, runRounds_of_none p g st h, h]
    | some s1 =>
      have e1 : runRounds p g (n + 1 + 1) st = runRounds p g (n + 1) s1 := by
        conv_lhs => unfold runRounds
        simp [h]
      have e2 : runRounds p g (n + 1) st = runRounds p g n s1 := by
        conv_lhs => unfold runRounds
        simp [h]
      rw [e1, e2, ih s1]

theorem round_error_le (p : Params) (g : StringArtGenerator) (st st' : GenState)
    (h : round p g st = some st') :
    st'.error.length = st.error.length ∧ ∀ k, st'.error.getD k 0 ≤ st.error.getD k 0 := by
  obtain ⟨b, -, he, -⟩ := round_error p g st st' h
  rw [he]
  exact ⟨drawLine_length _ _ _ _ _, fun k => drawLine_le _ _ _ _ _ k⟩

theorem round_error_bounded (p : Params) (g : StringArtGenerator) (st st' : GenState) (b : Nat)
    (h : round p g st = some st') (hb : ∀ v ∈ st.error, v ≤ b) : ∀ v ∈ st'.error, v ≤ b := by
  obtain ⟨hl, hle⟩ := round_error_le p g st st' h
  rw [all_le_iff_getD] at hb ⊢
  intro k hk
  exact le_trans (hle k) (hb k (hl ▸ hk))

theorem runRounds_error_bounded (p : Params) (g : StringArtGenerator) (b : Nat) (n : Nat)
    (st : GenState) (hb : ∀ v ∈ st.error, v ≤ b) : ∀ v ∈ (runRounds p g n st).error, v ≤ b := by
  induction n with
  | zero => exact hb
  | succ n ih =>
    rw [runRounds_succ]
    cases h : round p g (runRounds p g n st) with
    | none => exact ih
    | some s1 => exact round_error_bounded p g _ s1 b h ih

theorem initState_error_le (g : StringArtGenerator) : ∀ v ∈ (initState g).error, v ≤ 255 := by
  intro v hv
  simp only [initState, List.mem_map] at hv
  obtain ⟨px, -, rfl⟩ := hv
  exact Nat.sub_le _ _

/-- C1: from a residual buffer whose values are all at most 255, after any number `n` of
selection rounds every value is still at most 255 (values are naturals, so at least 0), and a
further round keeps the buffer size and leaves every pixel less than or equal to its value
before that round. -/
theorem residual_bounded_nonincreasing (p : Params) (g : StringArtGenerator) (st : GenState)
    (h : ∀ v ∈ st.error, v ≤ 255) (n : Nat) :
    (∀ v ∈ (runRounds p g n st).error, v ≤ 255) ∧
    (∀ st', round p g (runRounds p g n st) = some st' →
      st'.error.length = (runRounds p g n st).error.length ∧
      ∀ k, st'.error.getD k 0 ≤ (runRounds p g n st).error.getD k 0) :=
  ⟨runRounds_error_bounded p g 255 n st h, fun st' hr => round_error_le p g _ st' hr⟩

theorem residual_bounded_nonincreasing_witness :
    (∀ v ∈ (initState gen8).error, v ≤ 255) ∧
    ((∀ v ∈ (runRounds params8 gen8 2 (initState gen8)).error, v ≤ 255) ∧
    (∀ st', round params8 gen8 (runRounds params8 gen8 2 (initState gen8)) = some st' →
      st'.error.length = (runRounds params8 gen8 2 (initState gen8)).error.length ∧
      ∀ k, st'.error.getD k 0 ≤ (runRounds params8 gen8 2 (initState gen8)).error.getD k 0)) :=
  ⟨by decide, residual_bounded_nonincreasing params8 gen8 (initState gen8) (by decide) 2⟩

/-! ## The scan loop: first strict maximum among eligible offsets -/

theorem scanStep_foldl_spec (p : Params) (g : StringArtGenerator) (st : GenState) (l : List Nat) :
    (l.foldl (scanStep p g st) (none, 0) = (none, 0) ∧
      ∀ o ∈ l, testPin p st.currentPin o ∉ st.lastPins →
        lineErrOf p g st (testPin p st.currentPin o) = 0) ∨
    (∃ a o c, l = a ++ o :: c ∧
      l.foldl (scanStep p g st) (none, 0) =
        (some (testPin p st.currentPin o), lineErrOf p g st (testPin p st.currentPin o)) ∧
      testPin p st.currentPin o ∉ st.lastPins ∧
      0 < lineErrOf p g st (testPin p st.currentPin o) ∧
      (∀ o' ∈ a, testPin p st.currentPin o' ∉ st.lastPins →
        lineErrOf p g st (testPin p st.currentPin o') <
          lineErrOf p g st (testPin p st.currentPin o)) ∧
      (∀ o' ∈ c, testPin p st.currentPin o' ∉ st.lastPins →
        lineErrOf p g st (testPin p st.currentPin o') ≤
          lineErrOf p g st (testPin p st.currentPin o))) := by
  induction l using List.reverseRecOn with
  | nil => exact Or.inl ⟨rfl, by simp⟩
  | append_singleton l x ih =>
    rw [List.foldl_append, List.foldl_cons, List.foldl_nil]
    rcases ih with ⟨hacc, hzero⟩ | ⟨a, o, c, hl, hacc, helig, hpos, hbefore, hafter⟩
    · rw [hacc]
      unfold scanStep
      by_cases hx : testPin p st.currentPin x ∈ st.lastPins
      · rw [if_pos hx]
        refine Or.inl ⟨rfl, ?_⟩
        intro o ho hne
        rcases List.mem_append.1 ho with h | h
        · exact hzero o h hne
        · rw [List.mem_singleton] at h; subst h; exact absurd hx hne
      · rw [if_neg hx]
        by_cases hs : lineErrOf p g st (testPin p st.currentPin x) > 0
        · rw [if_pos hs]
          refine Or.inr ⟨l, x, [], rfl, rfl, hx, hs, ?_, by simp⟩
          intro o' ho' hne
          rw [hzero o' ho' hne]; exact hs
        · rw [if_neg hs]
          refine Or.inl ⟨rfl, ?_⟩
          intro o ho hne
          rcases List.mem_append.1 ho with h | h
          · exact hzero o h hne
          · rw [List.mem_singleton] at h; subst h; omega
    · rw [hacc]
      unfold scanStep
      by_cases hx : testPin p st.currentPin x ∈ st.lastPins
      · rw [if_pos hx]
        refine Or.inr ⟨a, o, c ++ [x], by simp [hl], rfl, helig, hpos, hbefore, ?_⟩
        intro o' ho' hne
        rcases List.mem_append.1 ho' with h | h
        · exact hafter o' h hne
        · rw [List.mem_singleton] at h; subst h; exact absurd hx hne
      · rw [if_neg hx]
        by_cases hs : lineErrOf p g st (testPin p st.currentPin x) >
            lineErrOf p g st (testPin p st.currentPin o)
        · rw [if_pos hs]
          refine Or.inr ⟨l, x, [], rfl, rfl, hx, by omega, ?_, by simp⟩
          intro o' ho' hne
          rw [hl] at ho'
          rcases List.mem_append.1 ho' with h | h
          · exact lt_trans (hbefore o' h hne) hs
          · rcases List.mem_cons.1 h with h | h
            · subst h; exact hs
            · exact lt_of_le_of_lt (hafter o' h hne) hs
        · rw [if_neg hs]
          refine Or.inr ⟨a, o, c ++ [x], by simp [hl], rfl, helig, hpos, hbefore, ?_⟩
          intro o' ho' hne
          rcases List.mem_append.1 ho' with h | h
          · exact hafter o' h hne
          · rw [List.mem_singleton] at h; subst h; omega

theorem offsets_split_lt (p : Params) (a c : List Nat) (o o' : Nat)
    (h : offsets p = a ++ o :: c) (ho' : o' ∈ offsets p) (hlt : o' < o) : o' ∈ a := by
  have hpw : List.Pairwise (· < ·) (offsets p) := List.pairwise_lt_range' _ _
  rw [h] at hpw ho'
  rw [List.pairwise_append] at hpw
  obtain ⟨-, hoc, -⟩ := hpw
  rw [List.pairwise_cons] at hoc
  rcases List.mem_append.1 ho' with h1 | h1
  · exact h1
  · rcases List.mem_cons.1 h1 with h2 | h2
    · omega
    · have := hoc.1 o' h2; omega

/-- What the scan loop returns: either nothing, when every eligible offset scores 0, or the pin
at the first eligible offset of greatest score, that score being positive. -/
theorem selectBestPin_spec (p : Params) (g : StringArtGenerator) (st : GenState) :
    (selectBestPin p g st = (none, 0) ∧
      ∀ o ∈ offsets p, testPin p st.currentPin o ∉ st.lastPins →
        lineErrOf p g st (testPin p st.currentPin o) = 0) ∨
    (∃ o ∈ offsets p,
      selectBestPin p g st =
        (some (testPin p st.currentPin o), lineErrOf p g st (testPin p st.currentPin o)) ∧
      testPin p st.currentPin o ∉ st.lastPins ∧
      0 < lineErrOf p g st (testPin p st.currentPin o) ∧
      (∀ o' ∈ offsets p, testPin p st.currentPin o' ∉ st.lastPins →
        lineErrOf p g st (testPin p st.currentPin o') ≤
          lineErrOf p g st (testPin p st.currentPin o)) ∧
      (∀ o' ∈ offsets p, o' < o → testPin p st.currentPin o' ∉ st.lastPins →
        lineErrOf p g st (testPin p st.currentPin o') <
          lineErrOf p g st (testPin p st.currentPin o))) := by
  unfold selectBestPin
  rcases scanStep_foldl_spec p g st (offsets p) with h | ⟨a, o, c, hl, hacc, helig, hpos, hb, ha⟩
  · exact Or.inl h
  · refine Or.inr ⟨o, by simp [hl], hacc, helig, hpos, ?_, ?_⟩
    · intro o' ho' hne
      rw [hl] at ho'
      rcases List.mem_append.1 ho' with h | h
      · exact le_of_lt (hb o' h hne)
      · rcases List.mem_cons.1 h with h | h
        · subst h; exact le_refl _
        · exact ha o' h hne
    · intro o' ho' hlt hne
      exact hb o' (offsets_split_lt p a c o o' hl ho' hlt) hne

theorem getLineErr_eq_sum (S : Nat) (err : List Nat) (coords1 coords2 : List Int) :
    getLineErr S err coords1 coords2 =
      ((coords1.zip coords2).map (fun rc => matAt S err rc.1 rc.2)).sum := by
  unfold getLineErr
  generalize coords1.zip coords2 = l
  have : ∀ (acc : Nat), l.foldl (fun sum rc => sum + matAt S err rc.1 rc.2) acc =
      acc + (l.map (fun rc => matAt S err rc.1 rc.2)).sum := by
    induction l with
    | nil => intro acc; simp
    | cons x xs ih => intro acc; rw [List.foldl_cons, ih]; simp [Nat.add_assoc]
  simpa using this 0

/-- C3: in a round that appends a pin, the appended pin is the test pin of a legal offset `o`,
is not in the recency window, its score (the sum of the residual over its stored footprint) is at
least the score of every eligible candidate, and every eligible candidate at a smaller offset
has a strictly smaller score. -/
theorem appended_pin_is_first_best (p : Params) (g : StringArtGenerator) (st st' : GenState)
    (h : round p g st = some st') :
    ∃ o ∈ offsets p,
      st'.lineSequence = st.lineSequence ++ [testPin p st.currentPin o] ∧
      testPin p st.currentPin o ∉ st.lastPins ∧
      (∀ pin, lineErrOf p g st pin =
        (((g.lineCacheY.getD (pin * p.PINS + st.currentPin) []).zip
          (g.lineCacheX.getD (pin * p.PINS + st.currentPin) [])).map
            (fun rc => matAt g.imgSize st.error rc.1 rc.2)).sum) ∧
      (∀ o' ∈ offsets p, testPin p st.currentPin o' ∉ st.lastPins →
        lineErrOf p g st (testPin p st.currentPin o') ≤
          lineErrOf p g st (testPin p st.currentPin o)) ∧
      (∀ o' ∈ offsets p, o' < o → testPin p st.currentPin o' ∉ st.lastPins →
        lineErrOf p g st (testPin p st.currentPin o') <
          lineErrOf p g st (testPin p st.currentPin o)) := by
  obtain ⟨b, hb, -, -, -, hseq⟩ := round_error p g st st' h
  rcases selectBestPin_spec p g st with ⟨hnone, -⟩ | ⟨o, ho, hsel, helig, -, hmax, hfirst⟩
  · rw [hnone] at hb; cases hb
  · rw [hsel] at hb
    simp only [Option.some.injEq] at hb
    refine ⟨o, ho, by rw [hseq, hb], helig, ?_, hmax, hfirst⟩
    intro pin
    exact getLineErr_eq_sum _ _ _ _

theorem appended_pin_is_first_best_witness :
    round params8 gen8 (initState gen8) = some afterRound8 ∧
    ∃ o ∈ offsets params8,
      afterRound8.lineSequence =
        (initState gen8).lineSequence ++ [testPin params8 (initState gen8).currentPin o] ∧
      testPin params8 (initState gen8).currentPin o ∉ (initState gen8).lastPins ∧
      (∀ pin, lineErrOf params8 gen8 (initState gen8) pin =
        (((gen8.lineCacheY.getD (pin * params8.PINS + (initState gen8).currentPin) []).zip
          (gen8.lineCacheX.getD (pin * params8.PINS + (initState gen8).currentPin) [])).map
            (fun rc => matAt gen8.imgSize (initState gen8).error rc.1 rc.2)).sum) ∧
      (∀ o' ∈ offsets params8, testPin params8 (initState gen8).currentPin o' ∉
          (initState gen8).lastPins →
        lineErrOf params8 gen8 (initState gen8) (testPin params8 (initState gen8).currentPin o') ≤
          lineErrOf params8 gen8 (initState gen8) (testPin params8 (initState gen8).currentPin o)) ∧
      (∀ o' ∈ offsets params8, o' < o → testPin params8 (initState gen8).currentPin o' ∉
          (initState gen8).lastPins →
        lineErrOf params8 gen8 (initState gen8) (testPin params8 (initState gen8).currentPin o') <
          lineErrOf params8 gen8 (initState gen8) (testPin params8 (initState gen8).currentPin o)) :=
  ⟨by decide, appended_pin_is_first_best params8 gen8 (initState gen8) afterRound8 (by decide)⟩

/-! ## The recency window -/

theorem windowInv_init (g : StringArtGenerator) : WindowInv (initState g) := by
  refine ⟨by simp [initState], ⟨[], rfl⟩, ?_⟩
  intro r k hk1 _ hkr hr
  simp only [initState, List.length_singleton] at hr
  omega

theorem window_mem (seq lastPins pre : List Nat) (hlen : lastPins.length = 20)
    (h : List.replicate 19 0 ++ seq = pre ++ lastPins) (j : Nat) (hj : j < seq.length)
    (hrecent : seq.length ≤ j + 20) : ∃ x, seq[j]? = some x ∧ x ∈ lastPins := by
  have hpre : pre.length + 20 = 19 + seq.length := by
    have := congrArg List.length h
    simp only [List.length_append, List.length_replicate] at this
    omega
  have e1 : (List.replicate 19 0 ++ seq)[19 + j]? = seq[j]? := by
    rw [List.getElem?_append_right (by simp)]
    simp
  have e2 : (pre ++ lastPins)[19 + j]? = lastPins[19 + j - pre.length]? :=
    List.getElem?_append_right (by omega)
  have hlt : 19 + j - pre.length < lastPins.length := by omega
  refine ⟨lastPins[19 + j - pre.length], ?_, List.getElem_mem hlt⟩
  rw [← e1, h, e2, List.getElem?_eq_getElem hlt]

theorem windowInv_round (p : Params) (g : StringArtGenerator) (st st' : GenState)
    (hinv : WindowInv st) (h : round p g st = some st') : WindowInv st' := by
  obtain ⟨hlen, ⟨pre, hpre⟩, hno⟩ := hinv
  obtain ⟨b, hb, -, -, hlast, hseq⟩ := round_error p g st st' h
  have hbnot : b ∉ st.lastPins := by
    rcases selectBestPin_spec p g st with ⟨hnone, -⟩ | ⟨o, -, hsel, helig, -⟩
    · rw [hnone] at hb; cases hb
    · rw [hsel] at hb
      simp only [Option.some.injEq] at hb
      rw [← hb]; exact helig
  cases hlp : st.lastPins with
  | nil => rw [hlp] at hlen; simp at hlen
  | cons x rest =>
    rw [hlp] at hlen hpre
    have hrest : rest.length = 19 := by simpa using hlen
    refine ⟨by rw [hlast, hlp]; simp [hrest], ⟨pre ++ [x], ?_⟩, ?_⟩
    · rw [hseq, hlast, hlp, ← List.append_assoc, hpre]
      simp
    · intro r k hk1 hk hkr hr
      rw [hseq] at hr ⊢
      simp only [List.length_append, List.length_singleton] at hr
      by_cases hrl : r < st.lineSequence.length
      · rw [List.getElem?_append_left hrl, List.getElem?_append_left (by omega)]
        exact hno r k hk1 hk hkr hrl
      · have hre : r = st.lineSequence.length := by omega
        subst hre
        rw [List.getElem?_append_right (le_refl _), List.getElem?_append_left (by omega)]
        obtain ⟨y, hy, hmem⟩ := window_mem st.lineSequence st.lastPins pre (by rw [hlp]; exact hlen)
          (by rw [hlp]; exact hpre) (st.lineSequence.length - k) (by omega) (by omega)
        rw [hy]
        simp only [Nat.sub_self, List.getElem?_cons_zero, ne_eq, Option.some.injEq]
        intro hby
        exact hbnot (hby ▸ hmem)

theorem windowInv_runRounds (p : Params) (g : StringArtGenerator) (n : Nat) (st : GenState)
    (hinv : WindowInv st) : WindowInv (runRounds p g n st) := by
  induction n with
  | zero => exact hinv
  | succ n ih =>
    rw [runRounds_succ]
    cases h : round p g (runRounds p g n st) with
    | none => exact ih
    | some s1 => exact windowInv_round p g _ s1 ih h

/-- C2: in the returned sequence, the entry at position `r ≥ 1` differs from each of the entries
at positions `r - 1, ..., r - 20` that exist (window size 20). -/
theorem no_repeat_within_window (p : Params) (g : StringArtGenerator) (r k : Nat)
    (hk1 : 1 ≤ k) (hk : k ≤ 20) (hkr : k ≤ r) (hr : r < (generateStringArt p g).length) :
    (generateStringArt p g)[r]? ≠ (generateStringArt p g)[r - k]? :=
  (windowInv_runRounds p g p.MAX_LINES (initState g) (windowInv_init g)).2.2 r k hk1 hk hkr hr

theorem no_repeat_within_window_witness :
    1 ≤ 2 ∧ 2 ≤ 20 ∧ 2 ≤ 3 ∧ 3 < (generateStringArt params8 gen8).length ∧
    (generateStringArt params8 gen8)[3]? ≠ (generateStringArt params8 gen8)[3 - 2]? :=
  ⟨by decide, by decide, by decide, by decide,
    no_repeat_within_window params8 gen8 3 2 (by decide) (by decide) (by decide) (by decide)⟩

/-! ## Length of the sequence and early termination -/

theorem runRounds_lineSequence (p : Params) (g : StringArtGenerator) (n : Nat) (st : GenState) :
    ∃ ext, (runRounds p g n st).lineSequence = st.lineSequence ++ ext ∧ ext.length ≤ n := by
  induction n with
  | zero => exact ⟨[], by simp [runRounds], le_refl _⟩
  | succ n ih =>
    obtain ⟨ext, he, hl⟩ := ih
    rw [runRounds_succ]
    cases h : round p g (runRounds p g n st) with
    | none => exact ⟨ext, he, Nat.le_succ_of_le hl⟩
    | some s1 =>
      obtain ⟨b, -, -, -, -, hseq⟩ := round_error p g _ s1 h
      refine ⟨ext ++ [b], ?_, by simp [hl]⟩
      show s1.lineSequence = _
      rw [hseq, he, List.append_assoc]

theorem runRounds_full_or_break (p : Params) (g : StringArtGenerator) (n : Nat) (st : GenState) :
    (runRounds p g n st).lineSequence.length = st.lineSequence.length + n ∨
    ∃ m, m < n ∧ round p g (runRounds p g m st) = none ∧
      runRounds p g n st = runRounds p g m st := by
  induction n with
  | zero => exact Or.inl rfl
  | succ n ih =>
    cases h : round p g (runRounds p g n st) with
    | none =>
      refine Or.inr ⟨n, Nat.lt_succ_self n, h, ?_⟩
      rw [runRounds_succ, h]
    | some s1 =>
      rcases ih with hfull | ⟨m, -, hm, heq⟩
      · left
        obtain ⟨b, -, -, -, -, hseq⟩ := round_error p g _ s1 h
        rw [runRounds_succ, h]
        show s1.lineSequence.length = _
        rw [hseq, List.length_append, hfull]
        simp [Nat.add_assoc]
      · rw [heq, hm] at h; cases h

theorem round_eq_none_iff (p : Params) (g : StringArtGenerator) (st : GenState) :
    round p g st = none ↔
      ∀ o ∈ offsets p, testPin p st.currentPin o ∉ st.lastPins →
        lineErrOf p g st (testPin p st.currentPin o) = 0 := by
  constructor
  · intro h o ho helig
    rcases selectBestPin_spec p g st with ⟨-, hz⟩ | ⟨o₁, -, hsel, -⟩
    · exact hz o ho helig
    · simp [round, hsel] at h
  · intro h
    rcases selectBestPin_spec p g st with ⟨hn, -⟩ | ⟨o₁, ho₁, -, helig, hpos, -⟩
    · simp [round, hn]
    · have := h o₁ ho₁ helig; omega

theorem matAt_zero (S : Nat) (err : List Nat) (hz : ∀ v ∈ err, v = 0) (r c : Int) :
    matAt S err r c = 0 := by
  unfold matAt
  cases matIndex S r c with
  | none => rfl
  | some k =>
    show err.getD k 0 = 0
    rw [List.getD_eq_getElem?_getD]
    cases hk : err[k]? with
    | none => rfl
    | some v => exact hz v (List.getElem?_mem hk)

theorem getLineErr_zero (S : Nat) (err : List Nat) (hz : ∀ v ∈ err, v = 0)
    (coords1 coords2 : List Int) : getLineErr S err coords1 coords2 = 0 := by
  rw [getLineErr_eq_sum]
  apply List.sum_eq_zero
  intro x hx
  obtain ⟨rc, -, rfl⟩ := List.mem_map.1 hx
  exact matAt_zero S err hz _ _

theorem round_none_of_zero (p : Params) (g : StringArtGenerator) (st : GenState)
    (hz : ∀ v ∈ st.error, v = 0) : round p g st = none := by
  rw [round_eq_none_iff]
  intro o _ _
  exact getLineErr_zero _ _ hz _ _

theorem initState_error_white (g : StringArtGenerator) (h : ∀ px ∈ g.sourceImage, px = 255) :
    ∀ v ∈ (initState g).error, v = 0 := by
  intro v hv
  simp only [initState, List.mem_map] at hv
  obtain ⟨px, hpx, rfl⟩ := hv
  rw [h px hpx]

theorem generate_white (p : Params) (g : StringArtGenerator)
    (h : ∀ px ∈ g.sourceImage, px = 255) : generateStringArt p g = [0] := by
  unfold generateStringArt
  rw [runRounds_of_none p g _ (round_none_of_zero p g _ (initState_error_white g h))]
  rfl

theorem white100_all (px : Nat) (h : px ∈ whiteGen100.sourceImage) : px = 255 :=
  (List.mem_replicate.1 h).2

/-- C4 (as stated, refuted): with the constants of the source on a white 100 x 100 grid, the
first round has an eligible candidate (offset 30, pin 30, not in the window), yet no pin is
appended and generation stops after 0 of its 3500 rounds. -/
theorem stops_with_eligible_candidate :
    30 ∈ offsets defaultParams ∧
    testPin defaultParams (initState whiteGen100).currentPin 30 ∉ (initState whiteGen100).lastPins ∧
    round defaultParams whiteGen100 (initState whiteGen100) = none ∧
    generateStringArt defaultParams whiteGen100 = [0] ∧
    (generateStringArt defaultParams whiteGen100).length < defaultParams.MAX_LINES + 1 := by
  have hg := generate_white defaultParams whiteGen100 white100_all
  refine ⟨by decide, by decide, ?_, hg, ?_⟩
  · exact round_none_of_zero _ _ _ (initState_error_white _ white100_all)
  · rw [hg]; decide

/-- C4 (amended): a round appends no pin exactly when every eligible candidate has score 0; a
round with an eligible candidate of positive score appends a pin; and when the returned sequence
is shorter than `MAX_LINES + 1`, some round `n < MAX_LINES` broke the loop in this way. -/
theorem stops_iff_no_positive_candidate (p : Params) (g : StringArtGenerator) :
    (∀ st, round p g st = none ↔
      ∀ o ∈ offsets p, testPin p st.currentPin o ∉ st.lastPins →
        lineErrOf p g st (testPin p st.currentPin o) = 0) ∧
    (∀ st, (∃ o ∈ offsets p, testPin p st.currentPin o ∉ st.lastPins ∧
        0 < lineErrOf p g st (testPin p st.currentPin o)) →
      ∃ st', round p g st = some st' ∧
        st'.lineSequence = st.lineSequence ++ [st'.currentPin]) ∧
    ((generateStringArt p g).length < p.MAX_LINES + 1 →
      ∃ n, n < p.MAX_LINES ∧
        generateStringArt p g = (runRounds p g n (initState g)).lineSequence ∧
        ∀ o ∈ offsets p,
          testPin p (runRounds p g n (initState g)).currentPin o ∉
            (runRounds p g n (initState g)).lastPins →
          lineErrOf p g (runRounds p g n (initState g))
            (testPin p (runRounds p g n (initState g)).currentPin o) = 0) := by
  refine ⟨round_eq_none_iff p g, ?_, ?_⟩
  · rintro st ⟨o, ho, helig, hpos⟩
    cases h : round p g st with
    | none =>
      have := (round_eq_none_iff p g st).1 h o ho helig
      omega
    | some st' =>
      obtain ⟨b, -, -, hcur, -, hseq⟩ := round_error p g st st' h
      exact ⟨st', rfl, by rw [hseq, hcur]⟩
  · intro hlen
    rcases runRounds_full_or_break p g p.MAX_LINES (initState g) with hfull | ⟨m, hm, hnone, heq⟩
    · unfold generateStringArt at hlen
      rw [hfull] at hlen
      simp [initState] at hlen
      omega
    · refine ⟨m, hm, ?_, (round_eq_none_iff p g _).1 hnone⟩
      unfold generateStringArt
      rw [heq]

/-- C5: the returned sequence starts with the seed pin 0, has at least 1 and at most
`MAX_LINES + 1` entries, and has exactly 1 entry when `MAX_LINES = 0`. -/
theorem sequence_length_bounds (p : Params) (g : StringArtGenerator) :
    (generateStringArt p g).head? = some 0 ∧
    1 ≤ (generateStringArt p g).length ∧
    (generateStringArt p g).length ≤ p.MAX_LINES + 1 ∧
    generateStringArt { p with MAX_LINES := 0 } g = [0] := by
  obtain ⟨ext, he, hl⟩ := runRounds_lineSequence p g p.MAX_LINES (initState g)
  unfold generateStringArt
  rw [he]
  refine ⟨rfl, ?_, ?_, rfl⟩
  · simp [initState]
  · simp only [initState, List.length_append, List.length_singleton]; omega

/-- C6: for every side length `imgSize`, when the `imgSize * imgSize` source grid is white
everywhere (so the initial residual is 0 everywhere), the returned sequence is the seed pin 0
alone. -/
theorem white_image_gives_seed_only (p : Params) (g : StringArtGenerator)
    (hw : g.sourceImage = List.replicate (g.imgSize * g.imgSize) 255) :
    generateStringArt p g = [0] := by
  apply generate_white
  intro px hpx
  rw [hw] at hpx
  exact (List.mem_replicate.1 hpx).2

theorem white_image_gives_seed_only_witness :
    whiteGen100.sourceImage = List.replicate (whiteGen100.imgSize * whiteGen100.imgSize) 255 ∧
    generateStringArt defaultParams whiteGen100 = [0] :=
  ⟨rfl, white_image_gives_seed_only defaultParams whiteGen100 rfl⟩

/-! ## Which table positions the cache builder assigns -/

theorem mem_innerRange (p : Params) (i j : Nat) :
    j ∈ innerRange p i ↔ i + p.MIN_DISTANCE ≤ j ∧ j < p.PINS := by
  unfold innerRange
  rw [List.mem_range'_1]
  omega

theorem mem_loopPairs (p : Params) (i j : Nat) :
    (i, j) ∈ loopPairs p ↔ i + p.MIN_DISTANCE ≤ j ∧ j < p.PINS := by
  unfold loopPairs
  simp only [List.mem_flatMap, List.mem_range, List.mem_map, Prod.mk.injEq, mem_innerRange]
  constructor
  · rintro ⟨i', -, j', hj', rfl, rfl⟩
    exact hj'
  · intro h
    exact ⟨i, by omega, j, h, rfl, rfl⟩

theorem mem_writtenIndices (p : Params) (idx : Nat) :
    idx ∈ writtenIndices p ↔
      ∃ i j, i + p.MIN_DISTANCE ≤ j ∧ j < p.PINS ∧ (idx = j * p.PINS + i ∨ idx = i * p.PINS + j) := by
  unfold writtenIndices writtenBy
  simp only [List.mem_flatMap, Prod.exists, mem_loopPairs, List.mem_cons, List.mem_singleton,
    List.not_mem_nil, or_false]
  constructor
  · rintro ⟨i, j, h, hidx⟩
    exact ⟨i, j, h.1, h.2, hidx⟩
  · rintro ⟨i, j, h1, h2, hidx⟩
    exact ⟨i, j, ⟨h1, h2⟩, hidx⟩

theorem pair_index_inj (P a b c d : Nat) (hb : b < P) (hd : d < P)
    (h : a * P + b = c * P + d) : a = c ∧ b = d := by
  have hac : a = c := by
    rcases Nat.lt_trichotomy a c with hlt | heq | hgt
    · have : (a + 1) * P ≤ c * P := Nat.mul_le_mul_right P hlt
      rw [Nat.add_mul] at this
      omega
    · exact heq
    · have : (c + 1) * P ≤ a * P := Nat.mul_le_mul_right P hgt
      rw [Nat.add_mul] at this
      omega
  subst hac
  exact ⟨rfl, by omega⟩

theorem pair_index_lt (P a b : Nat) (ha : a < P) (hb : b < P) : a * P + b < P * P := by
  have : (a + 1) * P ≤ P * P := Nat.mul_le_mul_right P ha
  rw [Nat.add_mul] at this
  omega

theorem stored_iff (p : Params) (a b : Nat) :
    stored p a b ↔
      a < p.PINS ∧ b < p.PINS ∧ (a + p.MIN_DISTANCE ≤ b ∨ b + p.MIN_DISTANCE ≤ a) := by
  unfold stored
  rw [mem_writtenIndices]
  constructor
  · rintro ⟨ha, hb, i, j, hij, hj, h | h⟩
    · obtain ⟨rfl, rfl⟩ := pair_index_inj p.PINS a b j i hb (by omega) h
      exact ⟨ha, hb, Or.inr hij⟩
    · obtain ⟨rfl, rfl⟩ := pair_index_inj p.PINS a b i j hb hj h
      exact ⟨ha, hb, Or.inl hij⟩
  · rintro ⟨ha, hb, h | h⟩
    · exact ⟨ha, hb, a, b, h, hb, Or.inr rfl⟩
    · exact ⟨ha, hb, b, a, h, ha, Or.inl rfl⟩

/-- C7 (as stated, refuted): with the constants of the source, a footprint is stored under the
key `(0, 299)`, whose circular pin-index distance is `1 < MIN_DISTANCE = 30`. -/
theorem stored_pair_at_circular_distance_one :
    stored defaultParams 0 299 ∧ circDist defaultParams 0 299 = 1 ∧
    circDist defaultParams 0 299 < defaultParams.MIN_DISTANCE :=
  ⟨(stored_iff defaultParams 0 299).2 ⟨by decide, by decide, Or.inl (by decide)⟩,
    by decide, by decide⟩

/-- C7 (amended): every pair `(i, j)` under which a footprint is stored consists of two pin
indices below `PINS` whose index difference `|i - j|` is at least `MIN_DISTANCE`. -/
theorem stored_pair_index_difference (p : Params) (i j : Nat) (h : stored p i j) :
    i < p.PINS ∧ j < p.PINS ∧ p.MIN_DISTANCE ≤ max i j - min i j := by
  obtain ⟨hi, hj, hd⟩ := (stored_iff p i j).1 h
  refine ⟨hi, hj, ?_⟩
  rcases hd with hd | hd
  · rw [max_eq_right (by omega), min_eq_left (by omega)]; omega
  · rw [max_eq_left (by omega), min_eq_right (by omega)]; omega

theorem stored_pair_index_difference_witness :
    stored params8 0 7 ∧
    (0 < params8.PINS ∧ 7 < params8.PINS ∧ params8.MIN_DISTANCE ≤ max 0 7 - min 0 7) :=
  ⟨by decide, stored_pair_index_difference params8 0 7 (by decide)⟩

/-! ## What the cache builder leaves in the tables -/

theorem precalculate_eq_foldl_loopPairs (p : Params) (pinCoords : List Coord) :
    precalculateAllPotentialLines p pinCoords =
      (loopPairs p).foldl (fun cache ij => storeLine p pinCoords cache ij.1 ij.2)
        (emptyCache p) := by
  unfold precalculateAllPotentialLines loopPairs emptyCache
  rw [List.flatMap_def, List.foldl_flatten, List.foldl_map]
  congr 1
  funext cache i
  rw [List.foldl_map]

theorem cacheInv_empty (p : Params) (pinCoords : List Coord) :
    CacheInv p pinCoords [] (emptyCache p) := by
  refine ⟨by simp [emptyCache], by simp [emptyCache], ?_⟩
  intro a b ha hb
  have hlt := pair_index_lt p.PINS a b ha hb
  simp [emptyCache, List.getElem?_replicate, hlt]

theorem cacheInv_storeLine (p : Params) (pinCoords : List Coord) (done : List (Nat × Nat))
    (cache : LineCache) (i j : Nat) (hij : i ≤ j) (hj : j < p.PINS)
    (h : CacheInv p pinCoords done cache) :
    CacheInv p pinCoords (done ++ [(i, j)]) (storeLine p pinCoords cache i j) := by
  obtain ⟨hly, hlx, hc⟩ := h
  refine ⟨by simp [storeLine, hly], by simp [storeLine, hlx], ?_⟩
  intro a b ha hb
  have hi : i < p.PINS := lt_of_le_of_lt hij hj
  have hlt1 := pair_index_lt p.PINS i j hi hj
  have hlt2 := pair_index_lt p.PINS j i hj hi
  simp only [storeLine, getD_set_eq, List.length_set, hly, hlx, hlt1, hlt2, and_true,
    List.mem_append, List.mem_singleton, Prod.mk.injEq]
  by_cases h1 : i * p.PINS + j = a * p.PINS + b
  · obtain ⟨rfl, rfl⟩ := pair_index_inj p.PINS i j a b hj hb h1
    simp [min_eq_left hij, max_eq_right hij, footprintY, footprintX]
  · by_cases h2 : j * p.PINS + i = a * p.PINS + b
    · obtain ⟨rfl, rfl⟩ := pair_index_inj p.PINS j i a b hi hb h2
      simp [min_eq_right hij, max_eq_left hij, footprintY, footprintX]
    · have hne : ¬ (min a b = i ∧ max a b = j) := by
        rintro ⟨hmin, hmax⟩
        rcases le_total a b with hab | hab
        · rw [min_eq_left hab] at hmin
          rw [max_eq_right hab] at hmax
          subst hmin hmax
          exact h1 rfl
        · rw [min_eq_right hab] at hmin
          rw [max_eq_left hab] at hmax
          subst hmin hmax
          exact h2 rfl
      rw [if_neg h1, if_neg h2, if_neg h1, if_neg h2]
      simp only [hne, or_false]
      exact hc a b ha hb

theorem cacheInv_foldl (p : Params) (pinCoords : List Coord) (pairs : List (Nat × Nat))
    (hpairs : ∀ ij ∈ pairs, ij.1 ≤ ij.2 ∧ ij.2 < p.PINS) :
    CacheInv p pinCoords pairs
      (pairs.foldl (fun cache ij => storeLine p pinCoords cache ij.1 ij.2) (emptyCache p)) := by
  induction pairs using List.reverseRecOn with
  | nil => exact cacheInv_empty p pinCoords
  | append_singleton l x ih =>
    rw [List.foldl_append, List.foldl_cons, List.foldl_nil]
    have hx := hpairs x (by simp)
    exact cacheInv_storeLine p pinCoords l _ x.1 x.2 hx.1 hx.2
      (ih (fun ij hij => hpairs ij (List.mem_append_left _ hij)))

/-- Contents of the finished tables: under a stored key `(a, b)` the footprint computed for the
ordered pair `(min a b, max a b)`, under any other key the empty list. -/
theorem cache_content (p : Params) (pinCoords : List Coord) (a b : Nat)
    (ha : a < p.PINS) (hb : b < p.PINS) :
    (precalculateAllPotentialLines p pinCoords).lineCacheY.getD (a * p.PINS + b) [] =
      (if stored p a b then footprintY pinCoords (min a b) (max a b) else []) ∧
    (precalculateAllPotentialLines p pinCoords).lineCacheX.getD (a * p.PINS + b) [] =
      (if stored p a b then footprintX pinCoords (min a b) (max a b) else []) := by
  have hinv := cacheInv_foldl p pinCoords (loopPairs p) (by
    rintro ⟨i, j⟩ hij
    rw [mem_loopPairs] at hij
    exact ⟨by omega, hij.2⟩)
  rw [← precalculate_eq_foldl_loopPairs] at hinv
  have hiff : (min a b, max a b) ∈ loopPairs p ↔ stored p a b := by
    rw [mem_loopPairs, stored_iff]
    rcases le_total a b with hab | hab
    · rw [min_eq_left hab, max_eq_right hab]
      constructor
      · intro h; exact ⟨ha, hb, Or.inl h.1⟩
      · rintro ⟨-, -, h | h⟩
        · exact ⟨h, hb⟩
        · exact ⟨by omega, hb⟩
    · rw [min_eq_right hab, max_eq_left hab]
      constructor
      · intro h; exact ⟨ha, hb, Or.inr h.1⟩
      · rintro ⟨-, -, h | h⟩
        · exact ⟨by omega, ha⟩
        · exact ⟨h, ha⟩
  have := hinv.2.2 a b ha hb
  simp only [hiff] at this
  exact this

theorem cache_length (p : Params) (pinCoords : List Coord) :
    (precalculateAllPotentialLines p pinCoords).lineCacheY.length = p.PINS * p.PINS ∧
    (precalculateAllPotentialLines p pinCoords).lineCacheX.length = p.PINS * p.PINS := by
  have hinv := cacheInv_foldl p pinCoords (loopPairs p) (by
    rintro ⟨i, j⟩ hij
    rw [mem_loopPairs] at hij
    exact ⟨by omega, hij.2⟩)
  rw [← precalculate_eq_foldl_loopPairs] at hinv
  exact ⟨hinv.1, hinv.2.1⟩

/-- C10: for every key `(i, j)` under which a footprint is stored, the row list and the column
list found under `(i, j)` are equal, as lists, to those found under `(j, i)`. -/
theorem cache_symmetric (p : Params) (pinCoords : List Coord) (i j : Nat) (h : stored p i j) :
    (precalculateAllPotentialLines p pinCoords).lineCacheY.getD (i * p.PINS + j) [] =
      (precalculateAllPotentialLines p pinCoords).lineCacheY.getD (j * p.PINS + i) [] ∧
    (precalculateAllPotentialLines p pinCoords).lineCacheX.getD (i * p.PINS + j) [] =
      (precalculateAllPotentialLines p pinCoords).lineCacheX.getD (j * p.PINS + i) [] := by
  obtain ⟨hi, hj, hd⟩ := (stored_iff p i j).1 h
  have h' : stored p j i := (stored_iff p j i).2 ⟨hj, hi, hd.symm⟩
  obtain ⟨hy1, hx1⟩ := cache_content p pinCoords i j hi hj
  obtain ⟨hy2, hx2⟩ := cache_content p pinCoords j i hj hi
  rw [if_pos h] at hy1 hx1
  rw [if_pos h'] at hy2 hx2
  refine ⟨?_, ?_⟩
  · rw [hy1, hy2, min_comm i j, max_comm i j]
  · rw [hx1, hx2, min_comm i j, max_comm i j]

theorem cache_symmetric_witness :
    stored params8 0 7 ∧
    ((precalculateAllPotentialLines params8 pins8).lineCacheY.getD (0 * params8.PINS + 7) [] =
      (precalculateAllPotentialLines params8 pins8).lineCacheY.getD (7 * params8.PINS + 0) [] ∧
    (precalculateAllPotentialLines params8 pins8).lineCacheX.getD (0 * params8.PINS + 7) [] =
      (precalculateAllPotentialLines params8 pins8).lineCacheX.getD (7 * params8.PINS + 0) []) :=
  ⟨by decide, cache_symmetric params8 pins8 0 7 (by decide)⟩

/-! ## The pins the selector scores, and the table positions it reads -/

theorem mem_offsets (p : Params) (o : Nat) :
    o ∈ offsets p ↔ p.MIN_DISTANCE ≤ o ∧ o < p.PINS - p.MIN_DISTANCE := by
  unfold offsets
  rw [List.mem_range'_1]
  omega

theorem testPin_cases (p : Params) (c o : Nat) (hc : c < p.PINS) (ho : o < p.PINS) :
    (c + o < p.PINS ∧ testPin p c o = c + o) ∨
    (p.PINS ≤ c + o ∧ testPin p c o + p.PINS = c + o) := by
  unfold testPin
  by_cases h : c + o < p.PINS
  · exact Or.inl ⟨h, Nat.mod_eq_of_lt h⟩
  · right
    have hle : p.PINS ≤ c + o := Nat.le_of_not_lt h
    refine ⟨hle, ?_⟩
    rw [Nat.mod_eq_sub_mod hle, Nat.mod_eq_of_lt (by omega)]
    omega

theorem testPin_lt (p : Params) (c o : Nat) (hc : c < p.PINS) : testPin p c o < p.PINS :=
  Nat.mod_lt _ (by omega)

theorem forward_offset_cases (P c pin : Nat) (hc : c < P) (hpin : pin < P) :
    (c ≤ pin ∧ (pin + P - c) % P = pin - c) ∨ (pin < c ∧ (pin + P - c) % P = pin + P - c) := by
  by_cases h : c ≤ pin
  · left
    refine ⟨h, ?_⟩
    have e : pin + P - c = (pin - c) + P := by omega
    rw [e, Nat.add_mod_right, Nat.mod_eq_of_lt (by omega)]
  · right
    exact ⟨by omega, Nat.mod_eq_of_lt (by omega)⟩

theorem forward_offset_testPin (p : Params) (c o : Nat) (hc : c < p.PINS) (ho : o < p.PINS) :
    (testPin p c o + p.PINS - c) % p.PINS = o := by
  have hlt := testPin_lt p c o hc
  rcases testPin_cases p c o hc ho with ⟨_, h2⟩ | ⟨_, h2⟩ <;>
    rcases forward_offset_cases p.PINS c (testPin p c o) hc hlt with ⟨_, h4⟩ | ⟨_, h4⟩ <;>
    rw [h4] <;> omega

theorem testPin_forward_offset (p : Params) (c pin : Nat) (hc : c < p.PINS) (hpin : pin < p.PINS) :
    testPin p c ((pin + p.PINS - c) % p.PINS) = pin := by
  rcases forward_offset_cases p.PINS c pin hc hpin with ⟨_, h4⟩ | ⟨_, h4⟩
  · rw [h4]
    rcases testPin_cases p c (pin - c) hc (by omega) with ⟨_, h2⟩ | ⟨_, h2⟩ <;> omega
  · rw [h4]
    rcases testPin_cases p c (pin + p.PINS - c) hc (by omega) with ⟨_, h2⟩ | ⟨_, h2⟩ <;> omega

theorem stored_of_offset (p : Params) (c o : Nat) (hc : c < p.PINS)
    (hlo : p.MIN_DISTANCE ≤ o) (hhi : o < p.PINS - p.MIN_DISTANCE) :
    stored p (testPin p c o) c := by
  rw [stored_iff]
  refine ⟨testPin_lt p c o hc, hc, ?_⟩
  rcases testPin_cases p c o hc (by omega) with ⟨_, h2⟩ | ⟨_, h2⟩
  · right; omega
  · left; omega

theorem selectBestPin_eq_foldl_scoredPins (p : Params) (g : StringArtGenerator) (st : GenState) :
    selectBestPin p g st = (scoredPins p st).foldl (scoreStep p g st) (none, 0) := by
  unfold selectBestPin scoredPins
  generalize ((none, 0) : Option Nat × Nat) = acc
  induction offsets p generalizing acc with
  | nil => rfl
  | cons o os ih =>
    rw [List.foldl_cons, List.map_cons, List.filter_cons]
    by_cases hm : testPin p st.currentPin o ∈ st.lastPins
    · simp only [hm, not_true_eq_false, decide_False, Bool.false_eq_true, if_false]
      rw [← ih]
      simp [scanStep, hm]
    · simp only [hm, not_false_eq_true, decide_True, if_true, List.foldl_cons]
      rw [← ih]
      simp [scanStep, scoreStep, hm]

theorem mem_scoredPins (p : Params) (st : GenState) (pin : Nat) :
    pin ∈ scoredPins p st ↔
      (∃ o, o ∈ offsets p ∧ testPin p st.currentPin o = pin) ∧ pin ∉ st.lastPins := by
  unfold scoredPins
  simp [List.mem_filter, List.mem_map]

/-- C9: for a current pin `c < PINS` and an offset in `[MIN_DISTANCE, PINS - MIN_DISTANCE)`, the
table position `testPin * PINS + c` read by the selector is one that the cache builder assigned,
it is below `PINS * PINS`, and it holds the footprint computed for the two pins. -/
theorem queried_index_was_written (p : Params) (pinCoords : List Coord) (c o : Nat)
    (hc : c < p.PINS) (hlo : p.MIN_DISTANCE ≤ o) (hhi : o < p.PINS - p.MIN_DISTANCE) :
    testPin p c o * p.PINS + c ∈ writtenIndices p ∧
    testPin p c o * p.PINS + c < p.PINS * p.PINS ∧
    testPin p c o * p.PINS + c < (precalculateAllPotentialLines p pinCoords).lineCacheY.length ∧
    testPin p c o * p.PINS + c < (precalculateAllPotentialLines p pinCoords).lineCacheX.length ∧
    (precalculateAllPotentialLines p pinCoords).lineCacheY.getD (testPin p c o * p.PINS + c) [] =
      footprintY pinCoords (min (testPin p c o) c) (max (testPin p c o) c) ∧
    (precalculateAllPotentialLines p pinCoords).lineCacheX.getD (testPin p c o * p.PINS + c) [] =
      footprintX pinCoords (min (testPin p c o) c) (max (testPin p c o) c) := by
  have hst := stored_of_offset p c o hc hlo hhi
  have hlt := pair_index_lt p.PINS (testPin p c o) c (testPin_lt p c o hc) hc
  obtain ⟨hy, hx⟩ := cache_content p pinCoords (testPin p c o) c (testPin_lt p c o hc) hc
  rw [if_pos hst] at hy hx
  obtain ⟨hly, hlx⟩ := cache_length p pinCoords
  exact ⟨hst.2.2, hlt, hly ▸ hlt, hlx ▸ hlt, hy, hx⟩

theorem queried_index_was_written_witness :
    0 < defaultParams.PINS ∧ defaultParams.MIN_DISTANCE ≤ 269 ∧
    269 < defaultParams.PINS - defaultParams.MIN_DISTANCE ∧
    (testPin defaultParams 0 269 * defaultParams.PINS + 0 ∈ writtenIndices defaultParams ∧
    testPin defaultParams 0 269 * defaultParams.PINS + 0 < defaultParams.PINS * defaultParams.PINS ∧
    testPin defaultParams 0 269 * defaultParams.PINS + 0 <
      (precalculateAllPotentialLines defaultParams pins100).lineCacheY.length ∧
    testPin defaultParams 0 269 * defaultParams.PINS + 0 <
      (precalculateAllPotentialLines defaultParams pins100).lineCacheX.length ∧
    (precalculateAllPotentialLines defaultParams pins100).lineCacheY.getD
        (testPin defaultParams 0 269 * defaultParams.PINS + 0) [] =
      footprintY pins100 (min (testPin defaultParams 0 269) 0) (max (testPin defaultParams 0 269) 0) ∧
    (precalculateAllPotentialLines defaultParams pins100).lineCacheX.getD
        (testPin defaultParams 0 269 * defaultParams.PINS + 0) [] =
      footprintX pins100 (min (testPin defaultParams 0 269) 0)
        (max (testPin defaultParams 0 269) 0)) :=
  ⟨by decide, by decide, by decide,
    queried_index_was_written defaultParams pins100 0 269 (by decide) (by decide) (by decide)⟩

/-- C8 (as stated, refuted): with the constants of the source, in the first round (current pin
0, window all zeros) a footprint is stored for the chord of pins 0 and 299 under both keys and
299 is not in the window, yet pin 299 is not among the pins that are scored. -/
theorem stored_pin_not_scored :
    (initState whiteGen100).currentPin = 0 ∧
    stored defaultParams 299 0 ∧ stored defaultParams 0 299 ∧
    299 ∉ (initState whiteGen100).lastPins ∧
    299 ∉ scoredPins defaultParams (initState whiteGen100) := by
  refine ⟨rfl, (stored_iff _ _ _).2 ⟨by decide, by decide, Or.inr (by decide)⟩,
    (stored_iff _ _ _).2 ⟨by decide, by decide, Or.inl (by decide)⟩, by decide, ?_⟩
  rw [mem_scoredPins]
  rintro ⟨⟨o, ho, hpin⟩, -⟩
  rw [mem_offsets] at ho
  simp only [defaultParams, PINS, MIN_DISTANCE, testPin, initState] at ho hpin
  omega

/-- C8 (amended): in a round with current pin `c < PINS`, the scan loop scores exactly the pins
in `scoredPins`, and a pin is scored if and only if a footprint for the chord of `c` and the pin
is stored, the forward offset `(pin - c) mod PINS` lies in
`[MIN_DISTANCE, PINS - MIN_DISTANCE)`, and the pin is not in the recency window. -/
theorem scored_iff_stored_in_offset_range (p : Params) (g : StringArtGenerator) (st : GenState)
    (hc : st.currentPin < p.PINS) (pin : Nat) :
    selectBestPin p g st = (scoredPins p st).foldl (scoreStep p g st) (none, 0) ∧
    (pin ∈ scoredPins p st ↔
      stored p pin st.currentPin ∧
      p.MIN_DISTANCE ≤ (pin + p.PINS - st.currentPin) % p.PINS ∧
      (pin + p.PINS - st.currentPin) % p.PINS < p.PINS - p.MIN_DISTANCE ∧
      pin ∉ st.lastPins) := by
  refine ⟨selectBestPin_eq_foldl_scoredPins p g st, ?_⟩
  rw [mem_scoredPins]
  constructor
  · rintro ⟨⟨o, ho, rfl⟩, hwin⟩
    rw [mem_offsets] at ho
    rw [forward_offset_testPin p st.currentPin o hc (by omega)]
    exact ⟨stored_of_offset p st.currentPin o hc ho.1 ho.2, ho.1, ho.2, hwin⟩
  · rintro ⟨hst, hlo, hhi, hwin⟩
    refine ⟨⟨(pin + p.PINS - st.currentPin) % p.PINS, (mem_offsets p _).2 ⟨hlo, hhi⟩, ?_⟩, hwin⟩
    exact testPin_forward_offset p st.currentPin pin hc hst.1

theorem scored_iff_stored_in_offset_range_witness :
    (initState gen8).currentPin < params8.PINS ∧
    (selectBestPin params8 gen8 (initState gen8) =
      (scoredPins params8 (initState gen8)).foldl (scoreStep params8 gen8 (initState gen8))
        (none, 0) ∧
    (3 ∈ scoredPins params8 (initState gen8) ↔
      stored params8 3 (initState gen8).currentPin ∧
      params8.MIN_DISTANCE ≤ (3 + params8.PINS - (initState gen8).currentPin) % params8.PINS ∧
      (3 + params8.PINS - (initState gen8).currentPin) % params8.PINS <
        params8.PINS - params8.MIN_DISTANCE ∧
      3 ∉ (initState gen8).lastPins)) :=
  ⟨by decide, scored_iff_stored_in_offset_range params8 gen8 (initState gen8) (by decide) 3⟩

/-! ## Animation frames -/

theorem frameStep_eq_one (maxFrames : Nat) (sequence : List Nat)
    (h : sequence.length < 2 * maxFrames) : frameStep maxFrames sequence = 1 := by
  unfold frameStep
  have : sequence.length / maxFrames ≤ 1 := by
    rcases Nat.eq_zero_or_pos maxFrames with h0 | hpos
    · subst h0; simp
    · exact Nat.le_of_lt_succ ((Nat.div_lt_iff_lt_mul hpos).2 (by omega))
  omega

theorem foldl_count_all (l : List Nat) (step len acc : Nat) (h : step = 1) :
    l.foldl (fun frameCount i => if i % step = 0 ∨ i = len then frameCount + 1 else frameCount)
      acc = acc + l.length := by
  subst h
  induction l generalizing acc with
  | nil => rfl
  | cons x xs ih =>
    rw [List.foldl_cons, if_pos (Or.inl (Nat.mod_one x)), ih, List.length_cons]
    omega

/-- Every short sequence (fewer than `2 * MAX_FRAMES` entries) gets one frame per drawn line. -/
theorem saveAnimation_short (maxFrames : Nat) (sequence : List Nat)
    (h : sequence.length < 2 * maxFrames) :
    saveAnimation maxFrames sequence = sequence.length - 1 := by
  unfold saveAnimation
  rw [foldl_count_all _ _ _ _ (frameStep_eq_one maxFrames sequence h)]
  simp

/-- C11: the stride is `max(1, size / MAX_FRAMES)`, but for the 99-entry sequence `sequence99`
the stride is 1 and 98 frames are written, more than `MAX_FRAMES = 50`. -/
theorem frames_exceed_max_on_99_pins :
    frameStep MAX_FRAMES sequence99 = max 1 (sequence99.length / MAX_FRAMES) ∧
    sequence99.length = 99 ∧
    frameStep MAX_FRAMES sequence99 = 1 ∧
    saveAnimation MAX_FRAMES sequence99 = 98 ∧
    MAX_FRAMES < saveAnimation MAX_FRAMES sequence99 := by
  have hlen : sequence99.length = 99 := by simp [sequence99]
  have hshort : sequence99.length < 2 * MAX_FRAMES := by rw [hlen]; decide
  have hcount := saveAnimation_short MAX_FRAMES sequence99 hshort
  rw [hlen] at hcount
  refine ⟨rfl, hlen, frameStep_eq_one _ _ hshort, hcount, ?_⟩
  rw [hcount]; decide

/-! ## The sequence file -/

theorem digitChar_ne_comma (d : Nat) (h : d < 10) : Nat.digitChar d ≠ ',' := by
  interval_cases d <;> decide

theorem toDigitsCore_no_comma (fuel n : Nat) (ds : List Char) (hds : ∀ c ∈ ds, c ≠ ',') :
    ∀ c ∈ Nat.toDigitsCore 10 fuel n ds, c ≠ ',' := by
  induction fuel generalizing n ds with
  | zero => simpa [Nat.toDigitsCore] using hds
  | succ fuel ih =>
    have hcons : ∀ c ∈ Nat.digitChar (n % 10) :: ds, c ≠ ',' := by
      intro c hc
      rcases List.mem_cons.1 hc with h | h
      · rw [h]; exact digitChar_ne_comma _ (Nat.mod_lt _ (by decide))
      · exact hds c h
    unfold Nat.toDigitsCore
    by_cases h0 : n / 10 = 0
    · simpa [h0] using hcons
    · simp only [h0, if_false]
      exact ih (n / 10) _ hcons

theorem toDigitsCore_ne_nil (fuel n : Nat) (ds : List Char) (h : ds ≠ [] ∨ 0 < fuel) :
    Nat.toDigitsCore 10 fuel n ds ≠ [] := by
  induction fuel generalizing n ds with
  | zero =>
    rcases h with h | h
    · simpa [Nat.toDigitsCore] using h
    · omega
  | succ fuel ih =>
    unfold Nat.toDigitsCore
    by_cases h0 : n / 10 = 0
    · simp [h0]
    · simp only [h0, if_false]
      exact ih (n / 10) _ (Or.inl (by simp))

theorem toString_data (n : Nat) : (toString n).data = Nat.toDigits 10 n := rfl

theorem toString_no_comma (n : Nat) : ',' ∉ (toString n).data := by
  intro h
  rw [toString_data] at h
  exact toDigitsCore_no_comma (n + 1) n [] (by simp) ',' h rfl

theorem toString_ne_nil (n : Nat) : (toString n).data ≠ [] := by
  rw [toString_data]
  exact toDigitsCore_ne_nil (n + 1) n [] (Or.inr (Nat.succ_pos n))

theorem saveSequence_foldl (sequence rest : List Nat) (a : Nat) (done : List Nat) (out : String)
    (hseq : sequence = done ++ a :: rest) :
    (List.range' done.length (rest.length + 1)).foldl (writeEntry sequence) out =
      String.intercalate.go (out ++ toString a) "," (rest.map toString) := by
  induction rest generalizing a done out with
  | nil =>
    have hget : sequence.getD done.length 0 = a := by
      rw [hseq, List.getD_eq_getElem?_getD, List.getElem?_append_right (le_refl _)]
      simp
    have hlen : ¬ done.length < sequence.length - 1 := by rw [hseq]; simp
    rw [List.length_nil, List.range'_succ, List.foldl_cons]
    unfold writeEntry
    rw [if_neg hlen, hget]
    rfl
  | cons b rest ih =>
    rw [List.range'_succ, List.foldl_cons]
    have hget : sequence.getD done.length 0 = a := by
      rw [hseq, List.getD_eq_getElem?_getD, List.getElem?_append_right (le_refl _)]
      simp
    have hlt : done.length < sequence.length - 1 := by rw [hseq]; simp
    have hstep : writeEntry sequence out done.length = out ++ toString a ++ "," := by
      unfold writeEntry
      rw [if_pos hlt, hget]
    have hlen : done.length + 1 = (done ++ [a]).length := by simp
    rw [hstep, hlen, List.length_cons, ih b (done ++ [a]) (out ++ toString a ++ ",") (by rw [hseq]; simp)]
    simp [String.intercalate.go]

theorem saveSequence_eq_intercalate (sequence : List Nat) :
    saveSequenceToFile sequence = String.intercalate "," (sequence.map toString) := by
  cases sequence with
  | nil => rfl
  | cons a rest =>
    have := saveSequence_foldl (a :: rest) rest a [] "" rfl
    simp only [List.length_nil, String.empty_append] at this
    unfold saveSequenceToFile
    rw [List.range_eq_range', List.length_cons, this]
    rfl

theorem intercalate_go_data (acc s : String) (l : List String) :
    (String.intercalate.go acc s l).data = acc.data ++ l.flatMap (fun a => s.data ++ a.data) := by
  induction l generalizing acc with
  | nil => simp [String.intercalate.go]
  | cons a as ih => simp [String.intercalate.go, ih]

theorem saveSequence_data (a : Nat) (rest : List Nat) :
    (saveSequenceToFile (a :: rest)).data =
      (toString a).data ++ rest.flatMap (fun b => ',' :: (toString b).data) := by
  rw [saveSequence_eq_intercalate]
  show (String.intercalate.go (toString a) "," (rest.map toString)).data = _
  rw [intercalate_go_data]
  congr 1
  induction rest with
  | nil => rfl
  | cons b bs ih => simp only [List.map_cons, List.flatMap_cons, ih]; rfl

theorem count_comma_flatMap (rest : List Nat) :
    (rest.flatMap (fun b => ',' :: (toString b).data)).count ',' = rest.length := by
  induction rest with
  | nil => rfl
  | cons b bs ih =>
    rw [List.flatMap_cons, List.count_append, ih, List.count_cons_self,
      List.count_eq_zero_of_not_mem (toString_no_comma b), List.length_cons]
    omega

theorem getLast_flatMap_ne_comma (a : Nat) (rest : List Nat) :
    ∀ c, ((toString a).data ++ rest.flatMap (fun b => ',' :: (toString b).data)).getLast? = some c →
      c ≠ ',' := by
  induction rest using List.reverseRecOn with
  | nil =>
    intro c hc heq
    simp only [List.flatMap_nil, List.append_nil] at hc
    exact toString_no_comma a (heq ▸ List.mem_of_getLast?_eq_some hc)
  | append_singleton l b _ =>
    intro c hc heq
    rw [List.flatMap_append, ← List.append_assoc] at hc
    simp only [List.flatMap_cons, List.flatMap_nil, List.append_nil] at hc
    have hsplit : (toString a).data ++ l.flatMap (fun b => ',' :: (toString b).data) ++
        ',' :: (toString b).data =
        ((toString a).data ++ l.flatMap (fun b => ',' :: (toString b).data) ++ [',']) ++
        (toString b).data := by simp
    rw [hsplit, List.getLast?_append_of_ne_nil _ (toString_ne_nil b)] at hc
    exact toString_no_comma b (heq ▸ List.mem_of_getLast?_eq_some hc)

/-- C12: for a non-empty sequence, the text written is the decimal renderings of the entries in
order joined by single commas; it contains exactly `length - 1` commas and neither begins nor
ends with a comma. -/
theorem sequence_text_comma_separated (sequence : List Nat) (h : sequence ≠ []) :
    saveSequenceToFile sequence = String.intercalate "," (sequence.map toString) ∧
    (saveSequenceToFile sequence).data.count ',' = sequence.length - 1 ∧
    (∃ c, (saveSequenceToFile sequence).data.head? = some c ∧ c ≠ ',') ∧
    (∃ c, (saveSequenceToFile sequence).data.getLast? = some c ∧ c ≠ ',') := by
  refine ⟨saveSequence_eq_intercalate sequence, ?_⟩
  cases sequence with
  | nil => exact absurd rfl h
  | cons a rest =>
    rw [saveSequence_data]
    refine ⟨?_, ?_, ?_⟩
    · rw [List.count_append, count_comma_flatMap,
        List.count_eq_zero_of_not_mem (toString_no_comma a)]
      simp
    · cases hd : (toString a).data with
      | nil => exact absurd hd (toString_ne_nil a)
      | cons c cs =>
        refine ⟨c, by simp, ?_⟩
        intro hc
        exact toString_no_comma a (by rw [hd, hc]; simp)
    · have hne : (toString a).data ++ rest.flatMap (fun b => ',' :: (toString b).data) ≠ [] := by
        simp [toString_ne_nil a]
      cases hl : ((toString a).data ++
          rest.flatMap (fun b => ',' :: (toString b).data)).getLast? with
      | none => exact absurd (List.getLast?_eq_none_iff.1 hl) hne
      | some c => exact ⟨c, rfl, getLast_flatMap_ne_comma a rest c hl⟩

theorem sequence_text_comma_separated_witness :
    [0, 31, 299, 5] ≠ [] ∧
    (saveSequenceToFile [0, 31, 299, 5] = String.intercalate "," ([0, 31, 299, 5].map toString) ∧
    (saveSequenceToFile [0, 31, 299, 5]).data.count ',' = [0, 31, 299, 5].length - 1 ∧
    (∃ c, (saveSequenceToFile [0, 31, 299, 5]).data.head? = some c ∧ c ≠ ',') ∧
    (∃ c, (saveSequenceToFile [0, 31, 299, 5]).data.getLast? = some c ∧ c ≠ ',')) :=
  ⟨by decide, sequence_text_comma_separated [0, 31, 299, 5] (by decide)⟩

/-! ## The effect of one round on the residual buffer -/

theorem matIndex_inj (S : Nat) (r c r' c' : Int) (k : Nat)
    (h : matIndex S r c = some k) (h' : matIndex S r' c' = some k) : (r, c) = (r', c') := by
  unfold matIndex at h h'
  split at h
  · next hin =>
    split at h'
    · next hin' =>
      simp only [Option.some.injEq] at h h'
      obtain ⟨h1, h2⟩ := pair_index_inj S r.toNat c.toNat r'.toNat c'.toNat
        (by omega) (by omega) (h.trans h'.symm)
      have : r = r' := by omega
      have : c = c' := by omega
      simp [*]
    · cases h'
  · cases h

theorem reduced_zero (p : Params) : reduced p 0 = 0 := by
  rw [reduced_eq]; simp

theorem matAt_matSet (p : Params) (S : Nat) (e : List Nat) (r c row col : Int) :
    matAt S (matSet S e r c (reduced p (matAt S e r c))) row col =
      if (r, c) = (row, col) then reduced p (matAt S e row col) else matAt S e row col := by
  unfold matSet matAt
  cases h1 : matIndex S r c with
  | none =>
    by_cases heq : (r, c) = (row, col)
    · have h2 : matIndex S row col = none := by
        have hr : r = row := congrArg Prod.fst heq
        have hc : c = col := congrArg Prod.snd heq
        rw [← hr, ← hc]; exact h1
      simp [heq, h2, reduced_zero]
    · simp [heq]
  | some k =>
    cases h2 : matIndex S row col with
    | none =>
      by_cases heq : (r, c) = (row, col)
      · have hr : r = row := congrArg Prod.fst heq
        have hc : c = col := congrArg Prod.snd heq
        rw [hr, hc, h2] at h1; cases h1
      · simp [heq]
    | some k' =>
      simp only [getD_set_eq]
      by_cases heq : (r, c) = (row, col)
      · have hr : r = row := congrArg Prod.fst heq
        have hc : c = col := congrArg Prod.snd heq
        have hk : k = k' := by
          rw [hr, hc, h2] at h1
          exact (Option.some.inj h1).symm
        subst hk
        rw [if_pos heq]
        by_cases hl : k < e.length
        · rw [if_pos ⟨rfl, hl⟩]
        · have h0 : e.getD k 0 = 0 := by
            rw [List.getD_eq_getElem?_getD, List.getElem?_eq_none (Nat.le_of_not_lt hl)]
            rfl
          rw [if_neg (fun hh => hl hh.2), h0, reduced_zero]
      · rw [if_neg heq]
        have hk : k ≠ k' := by
          intro hk
          subst hk
          exact heq (matIndex_inj S r c row col k h1 h2)
        simp [hk]

theorem matAt_drawLine (p : Params) (S : Nat) (ys xs : List Int) (err : List Nat)
    (row col : Int) :
    matAt S (drawLine p S err ys xs) row col =
      (reduced p)^[(ys.zip xs).count (row, col)] (matAt S err row col) := by
  unfold drawLine
  induction ys.zip xs generalizing err with
  | nil => rfl
  | cons rc rest ih =>
    rw [List.foldl_cons, ih, matAt_matSet]
    by_cases heq : rc = (row, col)
    · subst heq
      simp [List.count_cons_self, Function.iterate_succ_apply]
    · have heq' : ¬ (rc.1, rc.2) = (row, col) := by simpa using heq
      rw [if_neg heq', List.count_cons_of_ne (Ne.symm heq)]

theorem iterate_reduced (p : Params) (m v : Nat) (hv : v ≤ 255) :
    (reduced p)^[m] v = v - m * p.LINE_WEIGHT := by
  induction m generalizing v with
  | zero => simp
  | succ m ih =>
    have h1 : reduced p v = v - p.LINE_WEIGHT := by
      rw [reduced_eq]; exact Nat.mod_eq_of_lt (by omega)
    rw [Function.iterate_succ_apply, h1, ih _ (by omega), Nat.succ_mul]
    omega

theorem matAt_le_of_all_le (S : Nat) (err : List Nat) (b : Nat) (h : ∀ v ∈ err, v ≤ b)
    (row col : Int) : matAt S err row col ≤ b := by
  unfold matAt
  cases matIndex S row col with
  | none => exact Nat.zero_le _
  | some k =>
    show err.getD k 0 ≤ b
    rw [List.getD_eq_getElem?_getD]
    cases hk : err[k]? with
    | none => exact Nat.zero_le _
    | some v => exact h v (List.getElem?_mem hk)

theorem matSet_getD_of_ne (S : Nat) (e : List Nat) (r c : Int) (v k : Nat)
    (h : matIndex S r c ≠ some k) : (matSet S e r c v).getD k 0 = e.getD k 0 := by
  unfold matSet
  cases h1 : matIndex S r c with
  | none => rfl
  | some i =>
    have hik : i ≠ k := by
      intro hik; rw [h1, hik] at h; exact h rfl
    simp [getD_set_eq, hik]

theorem drawLine_getD_of_not_listed (p : Params) (S : Nat) (ys xs : List Int) (err : List Nat)
    (k : Nat) (h : ∀ rc ∈ ys.zip xs, matIndex S rc.1 rc.2 ≠ some k) :
    (drawLine p S err ys xs).getD k 0 = err.getD k 0 := by
  unfold drawLine
  generalize ys.zip xs = l at h
  induction l generalizing err with
  | nil => rfl
  | cons rc rest ih =>
    rw [List.foldl_cons, ih _ (fun x hx => h x (List.mem_cons_of_mem _ hx))]
    exact matSet_getD_of_ne S err rc.1 rc.2 _ k (h rc (List.mem_cons_self _ _))

theorem round_footprint (p : Params) (g : StringArtGenerator) (st st' : GenState)
    (h : round p g st = some st') :
    st'.error = drawLine p g.imgSize st.error
      (g.lineCacheY.getD (st'.currentPin * p.PINS + st.currentPin) [])
      (g.lineCacheX.getD (st'.currentPin * p.PINS + st.currentPin) []) := by
  obtain ⟨b, -, he, hc, -, -⟩ := round_error p g st st' h
  rw [he, hc]

/-- C14: in a round that selects a pin, a pixel `(row, col)` that is not listed in the winning
footprint keeps its value, as does every buffer position `k` that no footprint entry addresses,
and the buffer keeps its size; a round that selects no pin ends the loop with the whole buffer
unchanged. -/
theorem unlisted_pixels_unchanged (p : Params) (g : StringArtGenerator) (st : GenState) :
    (∀ st', round p g st = some st' →
      st'.error.length = st.error.length ∧
      (∀ row col, (row, col) ∉ winningFootprint p g st.currentPin st'.currentPin →
        matAt g.imgSize st'.error row col = matAt g.imgSize st.error row col) ∧
      (∀ k, (∀ rc ∈ winningFootprint p g st.currentPin st'.currentPin,
          matIndex g.imgSize rc.1 rc.2 ≠ some k) →
        st'.error.getD k 0 = st.error.getD k 0)) ∧
    (round p g st = none → ∀ n, (runRounds p g n st).error = st.error) := by
  refine ⟨?_, ?_⟩
  · intro st' h
    have he := round_footprint p g st st' h
    refine ⟨(round_error_le p g st st' h).1, ?_, ?_⟩
    · intro row col hnot
      rw [he, matAt_drawLine]
      have : List.count (row, col) ((g.lineCacheY.getD (st'.currentPin * p.PINS + st.currentPin)
          []).zip (g.lineCacheX.getD (st'.currentPin * p.PINS + st.currentPin) [])) = 0 :=
        List.count_eq_zero_of_not_mem hnot
      rw [this]
      rfl
    · intro k hk
      rw [he]
      exact drawLine_getD_of_not_listed p g.imgSize _ _ st.error k hk
  · intro h n
    rw [runRounds_of_none p g st h n]

/-- C15 (as stated, refuted): in the second round of the run on `twoDots8` the pixel `(3, 3)`
has residual 10 and occurs twice in the winning footprint; its value after the round is 0,
which equals `max(0, 10 - LINE_WEIGHT)` although the pixel does not occur exactly once. -/
theorem twice_listed_pixel_matches_single_subtraction :
    round params8 genDots8 dotsBefore = some dotsAfter ∧
    matAt genDots8.imgSize dotsBefore.error 3 3 = 10 ∧
    (winningFootprint params8 genDots8 dotsBefore.currentPin dotsAfter.currentPin).count
      (3, 3) = 2 ∧
    (matAt genDots8.imgSize dotsAfter.error 3 3 : Int) =
      max 0 ((matAt genDots8.imgSize dotsBefore.error 3 3 : Int) - params8.LINE_WEIGHT) := by
  refine ⟨by decide, by decide, by decide, by decide⟩

/-- C15 (amended): in a round that appends a pin, on a buffer of `uchar` values, every pixel
ends the round with value `max(0, old - m * LINE_WEIGHT)`, where `m` is its number of
occurrences in the winning footprint list; for `m = 1` this is `max(0, old - LINE_WEIGHT)`, and
when `old > LINE_WEIGHT > 0` it is `max(0, old - LINE_WEIGHT)` only for `m = 1`. -/
theorem weight_subtracted_per_occurrence (p : Params) (g : StringArtGenerator)
    (st st' : GenState) (h : round p g st = some st') (hbuf : ∀ v ∈ st.error, v ≤ 255)
    (row col : Int) :
    ((matAt g.imgSize st'.error row col : Int) =
      max 0 ((matAt g.imgSize st.error row col : Int) -
        ((winningFootprint p g st.currentPin st'.currentPin).count (row, col) : Int) *
          (p.LINE_WEIGHT : Int))) ∧
    ((winningFootprint p g st.currentPin st'.currentPin).count (row, col) = 1 →
      (matAt g.imgSize st'.error row col : Int) =
        max 0 ((matAt g.imgSize st.error row col : Int) - (p.LINE_WEIGHT : Int))) ∧
    (1 ≤ (winningFootprint p g st.currentPin st'.currentPin).count (row, col) →
      0 < p.LINE_WEIGHT → p.LINE_WEIGHT < matAt g.imgSize st.error row col →
      (matAt g.imgSize st'.error row col : Int) =
        max 0 ((matAt g.imgSize st.error row col : Int) - (p.LINE_WEIGHT : Int)) →
      (winningFootprint p g st.currentPin st'.currentPin).count (row, col) = 1) := by
  have he := round_footprint p g st st' h
  generalize hm : (winningFootprint p g st.currentPin st'.currentPin).count (row, col) = m
  have hval : matAt g.imgSize st'.error row col =
      matAt g.imgSize st.error row col - m * p.LINE_WEIGHT := by
    rw [he, matAt_drawLine]
    unfold winningFootprint at hm
    rw [hm]
    exact iterate_reduced p m _ (matAt_le_of_all_le _ _ 255 hbuf row col)
  refine ⟨?_, ?_, ?_⟩
  · rw [hval]; omega
  · intro h1; subst h1; rw [hval]; omega
  · intro hm1 hw hold heq
    rw [hval] at heq
    rcases Nat.lt_or_ge 1 m with h2 | h2
    · exfalso
      have : 2 * p.LINE_WEIGHT ≤ m * p.LINE_WEIGHT := Nat.mul_le_mul_right _ h2
      omega
    · omega

theorem weight_subtracted_per_occurrence_witness :
    round params8 genDots8 dotsBefore = some dotsAfter ∧
    (∀ v ∈ dotsBefore.error, v ≤ 255) ∧
    (((matAt genDots8.imgSize dotsAfter.error 3 3 : Int) =
      max 0 ((matAt genDots8.imgSize dotsBefore.error 3 3 : Int) -
        ((winningFootprint params8 genDots8 dotsBefore.currentPin dotsAfter.currentPin).count
          (3, 3) : Int) * (params8.LINE_WEIGHT : Int))) ∧
    ((winningFootprint params8 genDots8 dotsBefore.currentPin dotsAfter.currentPin).count
        (3, 3) = 1 →
      (matAt genDots8.imgSize dotsAfter.error 3 3 : Int) =
        max 0 ((matAt genDots8.imgSize dotsBefore.error 3 3 : Int) -
          (params8.LINE_WEIGHT : Int))) ∧
    (1 ≤ (winningFootprint params8 genDots8 dotsBefore.currentPin dotsAfter.currentPin).count
        (3, 3) →
      0 < params8.LINE_WEIGHT →
      params8.LINE_WEIGHT < matAt genDots8.imgSize dotsBefore.error 3 3 →
      (matAt genDots8.imgSize dotsAfter.error 3 3 : Int) =
        max 0 ((matAt genDots8.imgSize dotsBefore.error 3 3 : Int) -
          (params8.LINE_WEIGHT : Int)) →
      (winningFootprint params8 genDots8 dotsBefore.currentPin dotsAfter.currentPin).count
        (3, 3) = 1)) :=
  ⟨by decide, by decide,
    weight_subtracted_per_occurrence params8 genDots8 dotsBefore dotsAfter (by decide)
      (by decide) 3 3⟩

/-! ## Pins of the sequence -/

theorem circDist_testPin (p : Params) (c o : Nat) (hc : c < p.PINS) (ho : o ∈ offsets p) :
    p.MIN_DISTANCE ≤ circDist p c (testPin p c o) := by
  rw [mem_offsets] at ho
  unfold circDist
  rcases testPin_cases p c o hc (by omega) with ⟨_, h2⟩ | ⟨_, h2⟩
  · rw [max_eq_right (by omega), min_eq_left (by omega : c ≤ testPin p c o)]
    exact le_min (by omega) (by omega)
  · rw [max_eq_left (by omega), min_eq_right (by omega : testPin p c o ≤ c)]
    exact le_min (by omega) (by omega)

theorem round_winner (p : Params) (g : StringArtGenerator) (st st' : GenState)
    (h : round p g st = some st') :
    ∃ o ∈ offsets p, st'.currentPin = testPin p st.currentPin o ∧
      testPin p st.currentPin o ∉ st.lastPins ∧
      0 < lineErrOf p g st (testPin p st.currentPin o) ∧
      st'.lineSequence = st.lineSequence ++ [testPin p st.currentPin o] := by
  obtain ⟨b, hb, -, hcur, -, hseq⟩ := round_error p g st st' h
  rcases selectBestPin_spec p g st with ⟨hnone, -⟩ | ⟨o, ho, hsel, helig, hpos, -⟩
  · rw [hnone] at hb; cases hb
  · rw [hsel] at hb
    simp only [Option.some.injEq] at hb
    exact ⟨o, ho, by rw [hcur, hb], helig, hpos, by rw [hseq, hb]⟩

theorem seqInv_init (p : Params) (g : StringArtGenerator) (hP : 0 < p.PINS) :
    SeqInv p (initState g) := by
  refine ⟨hP, rfl, ?_, ?_⟩
  · intro x hx
    simp only [initState, List.mem_singleton] at hx
    rw [hx]; exact hP
  · intro r a b _ hb
    simp [initState] at hb

theorem seqInv_round (p : Params) (g : StringArtGenerator) (st st' : GenState)
    (hinv : SeqInv p st) (h : round p g st = some st') : SeqInv p st' := by
  obtain ⟨hc, hlast, hall, hcons⟩ := hinv
  obtain ⟨o, ho, hcur, -, -, hseq⟩ := round_winner p g st st' h
  have hlt := testPin_lt p st.currentPin o hc
  refine ⟨by rw [hcur]; exact hlt, by rw [hseq, hcur]; simp, ?_, ?_⟩
  · intro x hx
    rw [hseq] at hx
    rcases List.mem_append.1 hx with h1 | h1
    · exact hall x h1
    · rw [List.mem_singleton] at h1; rw [h1]; exact hlt
  · intro r a b ha hb
    rw [hseq] at ha hb
    by_cases hr : r + 1 < st.lineSequence.length
    · rw [List.getElem?_append_left (by omega)] at ha
      rw [List.getElem?_append_left hr] at hb
      exact hcons r a b ha hb
    · have hlen : r + 1 = st.lineSequence.length := by
        by_contra hne
        have hge : (st.lineSequence ++ [testPin p st.currentPin o]).length ≤ r + 1 := by
          simp only [List.length_append, List.length_singleton]; omega
        rw [List.getElem?_eq_none hge] at hb
        cases hb
      rw [List.getElem?_append_left (by omega)] at ha
      rw [List.getElem?_append_right (by omega), ← hlen] at hb
      simp only [Nat.sub_self, List.getElem?_cons_zero, Option.some.injEq] at hb
      rw [List.getLast?_eq_getElem?, ← hlen] at hlast
      simp only [Nat.add_sub_cancel] at hlast
      rw [hlast] at ha
      simp only [Option.some.injEq] at ha
      rw [← ha, ← hb]
      exact circDist_testPin p st.currentPin o hc ho

theorem seqInv_runRounds (p : Params) (g : StringArtGenerator) (n : Nat) (st : GenState)
    (hinv : SeqInv p st) : SeqInv p (runRounds p g n st) := by
  induction n with
  | zero => exact hinv
  | succ n ih =>
    rw [runRounds_succ]
    cases h : round p g (runRounds p g n st) with
    | none => exact ih
    | some s1 => exact seqInv_round p g _ s1 ih h

/-- C16: every entry of the returned sequence is a pin index below `PINS`, and any two
consecutive entries are distinct pins whose circular index distance is at least
`MIN_DISTANCE`. -/
theorem sequence_pins_valid_and_apart (p : Params) (g : StringArtGenerator) (hP : 0 < p.PINS) :
    (∀ x ∈ generateStringArt p g, x < p.PINS) ∧
    (∀ r a b, (generateStringArt p g)[r]? = some a → (generateStringArt p g)[r + 1]? = some b →
      a ≠ b ∧ p.MIN_DISTANCE ≤ circDist p a b) := by
  have hseq := seqInv_runRounds p g p.MAX_LINES (initState g) (seqInv_init p g hP)
  have hwin := windowInv_runRounds p g p.MAX_LINES (initState g) (windowInv_init g)
  refine ⟨hseq.2.2.1, ?_⟩
  intro r a b ha hb
  refine ⟨?_, hseq.2.2.2 r a b ha hb⟩
  intro hab
  have hlt : r + 1 < (generateStringArt p g).length := by
    by_contra hge
    rw [List.getElem?_eq_none (Nat.le_of_not_lt hge)] at hb
    cases hb
  have := hwin.2.2 (r + 1) 1 (le_refl 1) (by decide) (by omega) hlt
  apply this
  show (generateStringArt p g)[r + 1]? = (generateStringArt p g)[r + 1 - 1]?
  rw [Nat.add_sub_cancel, ha, hb, hab]

theorem sequence_pins_valid_and_apart_witness :
    0 < params8.PINS ∧
    ((∀ x ∈ generateStringArt params8 gen8, x < params8.PINS) ∧
    (∀ r a b, (generateStringArt params8 gen8)[r]? = some a →
      (generateStringArt params8 gen8)[r + 1]? = some b →
      a ≠ b ∧ params8.MIN_DISTANCE ≤ circDist params8 a b)) :=
  ⟨by decide, sequence_pins_valid_and_apart params8 gen8 (by decide)⟩

/-! ## The total residual decreases in every round -/

theorem sum_set_le (l : List Nat) (k v : Nat) (h : v ≤ l.getD k 0) :
    (l.set k v).sum ≤ l.sum := by
  induction l generalizing k with
  | nil => simp
  | cons x xs ih =>
    cases k with
    | zero =>
      simp only [List.set_cons_zero, List.sum_cons]
      have : v ≤ x := by simpa using h
      omega
    | succ k =>
      simp only [List.set_cons_succ, List.sum_cons]
      have := ih k (by simpa using h)
      omega

theorem sum_set_lt (l : List Nat) (k v : Nat) (h : v < l.getD k 0) :
    (l.set k v).sum < l.sum := by
  induction l generalizing k with
  | nil => simp at h
  | cons x xs ih =>
    cases k with
    | zero =>
      simp only [List.set_cons_zero, List.sum_cons]
      have : v < x := by simpa using h
      omega
    | succ k =>
      simp only [List.set_cons_succ, List.sum_cons]
      have := ih k (by simpa using h)
      omega

theorem set_getD_self (l : List Nat) (k : Nat) : l.set k (l.getD k 0) = l := by
  induction l generalizing k with
  | nil => rfl
  | cons x xs ih =>
    cases k with
    | zero => simp
    | succ k =>
      simp only [List.set_cons_succ, List.cons.injEq, true_and]
      have := ih k
      simpa using this

theorem reduced_lt (p : Params) (v : Nat) (hw : 0 < p.LINE_WEIGHT) (hv : 0 < v) :
    reduced p v < v := by
  rw [reduced_eq]
  exact lt_of_le_of_lt (Nat.mod_le _ _) (by omega)

theorem matSet_sum_le (p : Params) (S : Nat) (e : List Nat) (r c : Int) :
    (matSet S e r c (reduced p (matAt S e r c))).sum ≤ e.sum := by
  unfold matSet matAt
  cases matIndex S r c with
  | none => exact le_refl _
  | some k => exact sum_set_le e k _ (reduced_le p _)

theorem matSet_sum_lt (p : Params) (S : Nat) (e : List Nat) (r c : Int)
    (hw : 0 < p.LINE_WEIGHT) (hpos : 0 < matAt S e r c) :
    (matSet S e r c (reduced p (matAt S e r c))).sum < e.sum := by
  unfold matSet matAt at *
  cases h : matIndex S r c with
  | none => rw [h] at hpos; exact absurd hpos (lt_irrefl 0)
  | some k =>
    rw [h] at hpos
    exact sum_set_lt e k _ (reduced_lt p _ hw hpos)

theorem matSet_eq_of_zero (p : Params) (S : Nat) (e : List Nat) (r c : Int)
    (hz : matAt S e r c = 0) : matSet S e r c (reduced p (matAt S e r c)) = e := by
  rw [hz, reduced_zero]
  unfold matSet matAt at *
  cases h : matIndex S r c with
  | none => rfl
  | some k =>
    rw [h] at hz
    have hz' : e.getD k 0 = 0 := hz
    have := set_getD_self e k
    rw [hz'] at this
    exact this

theorem foldl_matSet_sum_le (p : Params) (S : Nat) (l : List (Int × Int)) (err : List Nat) :
    (l.foldl (fun e rc => matSet S e rc.1 rc.2 (reduced p (matAt S e rc.1 rc.2))) err).sum ≤
      err.sum := by
  induction l generalizing err with
  | nil => exact le_refl _
  | cons rc rest ih =>
    rw [List.foldl_cons]
    exact le_trans (ih _) (matSet_sum_le p S err rc.1 rc.2)

theorem foldl_matSet_sum_lt (p : Params) (S : Nat) (l : List (Int × Int)) (err : List Nat)
    (hw : 0 < p.LINE_WEIGHT) (h : ∃ rc ∈ l, 0 < matAt S err rc.1 rc.2) :
    (l.foldl (fun e rc => matSet S e rc.1 rc.2 (reduced p (matAt S e rc.1 rc.2))) err).sum <
      err.sum := by
  induction l generalizing err with
  | nil => obtain ⟨rc, hrc, -⟩ := h; cases hrc
  | cons x rest ih =>
    rw [List.foldl_cons]
    by_cases hx : 0 < matAt S err x.1 x.2
    · exact lt_of_le_of_lt (foldl_matSet_sum_le p S rest _) (matSet_sum_lt p S err x.1 x.2 hw hx)
    · have hz : matAt S err x.1 x.2 = 0 := by omega
      rw [matSet_eq_of_zero p S err x.1 x.2 hz]
      apply ih
      obtain ⟨rc, hrc, hpos⟩ := h
      rcases List.mem_cons.1 hrc with h1 | h1
      · subst h1; exact absurd hpos hx
      · exact ⟨rc, h1, hpos⟩

theorem drawLine_sum_lt (p : Params) (S : Nat) (ys xs : List Int) (err : List Nat)
    (hw : 0 < p.LINE_WEIGHT) (h : ∃ rc ∈ ys.zip xs, 0 < matAt S err rc.1 rc.2) :
    (drawLine p S err ys xs).sum < err.sum :=
  foldl_matSet_sum_lt p S (ys.zip xs) err hw h

theorem exists_pos_of_getLineErr_pos (S : Nat) (err : List Nat) (coords1 coords2 : List Int)
    (h : 0 < getLineErr S err coords1 coords2) :
    ∃ rc ∈ coords1.zip coords2, 0 < matAt S err rc.1 rc.2 := by
  by_contra hno
  have hz : ((coords1.zip coords2).map (fun rc => matAt S err rc.1 rc.2)).sum = 0 := by
    apply List.sum_eq_zero
    intro x hx
    obtain ⟨rc, hrc, rfl⟩ := List.mem_map.1 hx
    by_contra hne
    exact hno ⟨rc, hrc, Nat.pos_of_ne_zero hne⟩
  rw [getLineErr_eq_sum, hz] at h
  exact lt_irrefl 0 h

theorem round_sum_lt (p : Params) (g : StringArtGenerator) (st st' : GenState)
    (hw : 0 < p.LINE_WEIGHT) (h : round p g st = some st') :
    0 < lineErrOf p g st st'.currentPin ∧ st'.error.sum < st.error.sum := by
  obtain ⟨o, -, hcur, -, hpos, -⟩ := round_winner p g st st' h
  rw [← hcur] at hpos
  refine ⟨hpos, ?_⟩
  rw [round_footprint p g st st' h]
  exact drawLine_sum_lt p g.imgSize _ _ st.error hw
    (exists_pos_of_getLineErr_pos _ _ _ _ hpos)

theorem runRounds_length_add_sum (p : Params) (g : StringArtGenerator) (hw : 0 < p.LINE_WEIGHT)
    (n : Nat) (st : GenState) :
    (runRounds p g n st).lineSequence.length + (runRounds p g n st).error.sum ≤
      st.lineSequence.length + st.error.sum := by
  induction n with
  | zero => exact le_refl _
  | succ n ih =>
    rw [runRounds_succ]
    cases h : round p g (runRounds p g n st) with
    | none => exact ih
    | some s1 =>
      obtain ⟨b, -, -, -, -, hseq⟩ := round_error p g _ s1 h
      have hlt := (round_sum_lt p g _ s1 hw h).2
      show s1.lineSequence.length + s1.error.sum ≤ _
      rw [hseq, List.length_append, List.length_singleton]
      omega

/-- C17: with a positive `LINE_WEIGHT`, in every round that appends a pin the score of the
winning chord is positive and the sum of all residual values strictly decreases; hence the
returned sequence has at most `1 + (sum of the initial residual values)` entries. -/
theorem total_residual_decreases (p : Params) (g : StringArtGenerator)
    (hw : 0 < p.LINE_WEIGHT) :
    (∀ st st', round p g st = some st' →
      0 < lineErrOf p g st st'.currentPin ∧ st'.error.sum < st.error.sum) ∧
    (generateStringArt p g).length ≤ 1 + (initState g).error.sum := by
  refine ⟨fun st st' h => round_sum_lt p g st st' hw h, ?_⟩
  have := runRounds_length_add_sum p g hw p.MAX_LINES (initState g)
  unfold generateStringArt
  have h1 : (initState g).lineSequence.length = 1 := rfl
  omega

theorem total_residual_decreases_witness :
    0 < params8.LINE_WEIGHT ∧
    ((∀ st st', round params8 gen8 st = some st' →
      0 < lineErrOf params8 gen8 st st'.currentPin ∧ st'.error.sum < st.error.sum) ∧
    (generateStringArt params8 gen8).length ≤ 1 + (initState gen8).error.sum) :=
  ⟨by decide, total_residual_decreases params8 gen8 (by decide)⟩

/-! ## The candidate set is never empty with the constants of the source -/

theorem testPin_inj (p : Params) (c o₁ o₂ : Nat) (hc : c < p.PINS)
    (h₁ : o₁ < p.PINS) (h₂ : o₂ < p.PINS) (h : testPin p c o₁ = testPin p c o₂) : o₁ = o₂ := by
  rw [← forward_offset_testPin p c o₁ hc h₁, ← forward_offset_testPin p c o₂ hc h₂, h]

theorem nodup_testPins (p : Params) (c : Nat) (hc : c < p.PINS) :
    ((offsets p).map (testPin p c)).Nodup := by
  apply List.Nodup.map_on
  · intro x hx y hy hxy
    rw [mem_offsets] at hx hy
    exact testPin_inj p c x y hc (by omega) (by omega) hxy
  · exact List.nodup_range' _ _

theorem length_filter_mem_le (l w : List Nat) (hl : l.Nodup) :
    (l.filter (fun x => decide (x ∈ w))).length ≤ w.length := by
  apply List.Subperm.length_le
  apply List.subperm_of_subset (hl.filter _)
  intro x hx
  simpa using (List.mem_filter.1 hx).2

theorem scoredPins_length (p : Params) (st : GenState) (hc : st.currentPin < p.PINS) :
    p.PINS - p.MIN_DISTANCE - p.MIN_DISTANCE ≤ (scoredPins p st).length + st.lastPins.length := by
  have hlen : ((offsets p).map (testPin p st.currentPin)).length =
      p.PINS - p.MIN_DISTANCE - p.MIN_DISTANCE := by
    simp [offsets]
  have hsplit := List.length_eq_length_filter_add
    (l := (offsets p).map (testPin p st.currentPin)) (fun pin => decide (pin ∉ st.lastPins))
  have hle := length_filter_mem_le ((offsets p).map (testPin p st.currentPin)) st.lastPins
    (nodup_testPins p st.currentPin hc)
  have heq : List.filter (fun x => !decide (x ∉ st.lastPins))
      ((offsets p).map (testPin p st.currentPin)) =
      List.filter (fun x => decide (x ∈ st.lastPins))
        ((offsets p).map (testPin p st.currentPin)) := by
    congr 1
    funext x
    by_cases hx : x ∈ st.lastPins <;> simp [hx]
  rw [heq] at hsplit
  unfold scoredPins
  omega

theorem round_eq_none_iff_scored (p : Params) (g : StringArtGenerator) (st : GenState) :
    round p g st = none ↔ ∀ pin ∈ scoredPins p st, lineErrOf p g st pin = 0 := by
  rw [round_eq_none_iff]
  constructor
  · intro h pin hpin
    obtain ⟨⟨o, ho, rfl⟩, hwin⟩ := (mem_scoredPins p st pin).1 hpin
    exact h o ho hwin
  · intro h o ho hwin
    exact h _ ((mem_scoredPins p st _).2 ⟨⟨o, ho, rfl⟩, hwin⟩)

theorem runRounds_stuck (p : Params) (g : StringArtGenerator) (st : GenState) (m k : Nat)
    (h : round p g (runRounds p g m st) = none) :
    runRounds p g (m + k) st = runRounds p g m st := by
  induction k with
  | zero => rfl
  | succ k ih =>
    rw [← Nat.add_assoc, runRounds_succ, ih, h]

theorem early_stop_iff (p : Params) (g : StringArtGenerator) :
    (generateStringArt p g).length < p.MAX_LINES + 1 ↔
      ∃ m, m < p.MAX_LINES ∧ round p g (runRounds p g m (initState g)) = none := by
  constructor
  · intro hlen
    rcases runRounds_full_or_break p g p.MAX_LINES (initState g) with hfull | ⟨m, hm, hnone, -⟩
    · unfold generateStringArt at hlen
      rw [hfull] at hlen
      simp [initState] at hlen
      omega
    · exact ⟨m, hm, hnone⟩
  · rintro ⟨m, hm, hnone⟩
    have hstuck := runRounds_stuck p g (initState g) m (p.MAX_LINES - m) hnone
    have hM : m + (p.MAX_LINES - m) = p.MAX_LINES := by omega
    rw [hM] at hstuck
    obtain ⟨ext, he, hl⟩ := runRounds_lineSequence p g m (initState g)
    unfold generateStringArt
    rw [hstuck, he]
    simp only [initState, List.length_append, List.length_singleton]
    omega

/-- C18: with `PINS = 300`, `MIN_DISTANCE = 30` and the window of 20 entries, before every
round (after any number `n` of rounds) at least 220 pins are scored, so the candidate set is
not empty; and the returned sequence is shorter than `MAX_LINES + 1` exactly when, before some
round `m < MAX_LINES`, every scored candidate has score 0. -/
theorem default_candidates_never_empty (g : StringArtGenerator) :
    (∀ n, 220 ≤ (scoredPins defaultParams (runRounds defaultParams g n (initState g))).length ∧
      scoredPins defaultParams (runRounds defaultParams g n (initState g)) ≠ []) ∧
    ((generateStringArt defaultParams g).length < defaultParams.MAX_LINES + 1 ↔
      ∃ m, m < defaultParams.MAX_LINES ∧
        ∀ pin ∈ scoredPins defaultParams (runRounds defaultParams g m (initState g)),
          lineErrOf defaultParams g (runRounds defaultParams g m (initState g)) pin = 0) := by
  have hcount : ∀ n,
      220 ≤ (scoredPins defaultParams (runRounds defaultParams g n (initState g))).length := by
    intro n
    have hseq := seqInv_runRounds defaultParams g n (initState g)
      (seqInv_init defaultParams g (by decide))
    have hwin := windowInv_runRounds defaultParams g n (initState g) (windowInv_init g)
    have := scoredPins_length defaultParams _ hseq.1
    rw [hwin.1] at this
    have hP : defaultParams.PINS - defaultParams.MIN_DISTANCE - defaultParams.MIN_DISTANCE =
        240 := by decide
    omega
  refine ⟨fun n => ⟨hcount n, ?_⟩, ?_⟩
  · intro hnil
    have := hcount n
    rw [hnil] at this
    simp at this
  · rw [early_stop_iff]
    constructor
    · rintro ⟨m, hm, hnone⟩
      exact ⟨m, hm, (round_eq_none_iff_scored _ _ _).1 hnone⟩
    · rintro ⟨m, hm, hz⟩
      exact ⟨m, hm, (round_eq_none_iff_scored _ _ _).2 hz⟩

/-! ## Distinctness of the pin coordinates -/

theorem calculatePinCoords_length (S N : Nat) : (calculatePinCoords S N).length = N := by
  simp [calculatePinCoords]

theorem calculatePinCoords_getD (S N i : Nat) (hi : i < N) :
    (calculatePinCoords S N).getD i ⟨0, 0⟩ = pinCoord S N i := by
  simp [calculatePinCoords, List.getD_eq_getElem?_getD, List.getElem?_map,
    List.getElem?_range hi]

theorem chord_sq (a b : ℝ) :
    (Real.cos a - Real.cos b) ^ 2 + (Real.sin a - Real.sin b) ^ 2 =
      4 * Real.sin ((b - a) / 2) ^ 2 := by
  have h1 : b - a = 2 * ((b - a) / 2) := by ring
  have h2 := Real.cos_sub b a
  rw [h1, Real.cos_two_mul] at h2
  have h3 := Real.sin_sq_add_cos_sq ((b - a) / 2)
  have h4 := Real.sin_sq_add_cos_sq a
  have h5 := Real.sin_sq_add_cos_sq b
  nlinarith

theorem sin_step_lower (N m : Nat) (hm : 1 ≤ m) (hmN : m < N) :
    2 / (N : ℝ) ≤ Real.sin (Real.pi * (m : ℝ) / (N : ℝ)) := by
  have hNpos : (0 : ℝ) < (N : ℝ) := by exact_mod_cast (by omega : 0 < N)
  have hpi := Real.pi_pos
  by_cases h2 : 2 * m ≤ N
  · have hx0 : 0 ≤ Real.pi * (m : ℝ) / (N : ℝ) := by positivity
    have hx1 : Real.pi * (m : ℝ) / (N : ℝ) ≤ Real.pi / 2 := by
      rw [div_le_div_iff₀ hNpos (by norm_num)]
      have : (2 : ℝ) * (m : ℝ) ≤ (N : ℝ) := by exact_mod_cast h2
      nlinarith
    have hj := Real.mul_le_sin hx0 hx1
    have he : 2 / Real.pi * (Real.pi * (m : ℝ) / (N : ℝ)) = 2 * (m : ℝ) / (N : ℝ) := by
      field_simp
      ring
    rw [he] at hj
    refine le_trans ?_ hj
    rw [div_le_div_iff_of_pos_right hNpos]
    have : (1 : ℝ) ≤ (m : ℝ) := by exact_mod_cast hm
    linarith
  · have hlt : N < 2 * m := Nat.lt_of_not_le h2
    have hsub : Real.pi - Real.pi * (m : ℝ) / (N : ℝ) =
        Real.pi * ((N - m : Nat) : ℝ) / (N : ℝ) := by
      rw [Nat.cast_sub (le_of_lt hmN)]
      field_simp
      ring
    have hx0 : 0 ≤ Real.pi * ((N - m : Nat) : ℝ) / (N : ℝ) := by positivity
    have hx1 : Real.pi * ((N - m : Nat) : ℝ) / (N : ℝ) ≤ Real.pi / 2 := by
      rw [div_le_div_iff₀ hNpos (by norm_num)]
      have : (2 : ℝ) * ((N - m : Nat) : ℝ) ≤ (N : ℝ) := by exact_mod_cast (by omega : 2 * (N - m) ≤ N)
      nlinarith
    have hj := Real.mul_le_sin hx0 hx1
    have he : 2 / Real.pi * (Real.pi * ((N - m : Nat) : ℝ) / (N : ℝ)) =
        2 * ((N - m : Nat) : ℝ) / (N : ℝ) := by
      field_simp
      ring
    rw [he, ← hsub, Real.sin_pi_sub] at hj
    refine le_trans ?_ hj
    rw [div_le_div_iff_of_pos_right hNpos]
    have : (1 : ℝ) ≤ ((N - m : Nat) : ℝ) := by exact_mod_cast (by omega : 1 ≤ N - m)
    linarith

theorem pinCoord_ne (S N k l : Nat) (hkl : k < l) (hl : l < N)
    (hN : N * N ≤ 2 * ((S - 2) * (S - 2))) : pinCoord S N k ≠ pinCoord S N l := by
  intro heq
  have hx : (pinCoord S N k).x = (pinCoord S N l).x := by rw [heq]
  have hy : (pinCoord S N k).y = (pinCoord S N l).y := by rw [heq]
  unfold pinCoord at hx hy
  simp only at hx hy
  have hdx := Int.abs_sub_lt_one_of_floor_eq_floor hx
  have hdy := Int.abs_sub_lt_one_of_floor_eq_floor hy
  have hNpos : (0 : ℝ) < (N : ℝ) := by exact_mod_cast (by omega : 0 < N)
  have hS : 2 ≤ S := by
    by_contra hlt
    have h0 : S - 2 = 0 := by omega
    rw [h0] at hN
    have : N * N = 0 := by omega
    have : 2 * 2 ≤ N * N := Nat.mul_le_mul (by omega) (by omega)
    omega
  have hNr : (N : ℝ) * (N : ℝ) ≤ 2 * (((S : ℝ) - 2) * ((S : ℝ) - 2)) := by
    have h := hN
    have hc : ((N * N : Nat) : ℝ) ≤ ((2 * ((S - 2) * (S - 2)) : Nat) : ℝ) := by exact_mod_cast h
    push_cast [Nat.cast_sub hS] at hc
    exact hc
  have hsq : ((S : ℝ) / 2 - 1) ^ 2 *
      ((Real.cos (pinAngle N k) - Real.cos (pinAngle N l)) ^ 2 +
        (Real.sin (pinAngle N k) - Real.sin (pinAngle N l)) ^ 2) < 2 := by
    have h1 := abs_lt.1 hdx
    have h2 := abs_lt.1 hdy
    nlinarith [h1.1, h1.2, h2.1, h2.2]
  rw [chord_sq] at hsq
  have hphi : (pinAngle N l - pinAngle N k) / 2 = Real.pi * ((l - k : Nat) : ℝ) / (N : ℝ) := by
    unfold pinAngle
    rw [Nat.cast_sub (le_of_lt hkl)]
    field_simp
    ring
  rw [hphi] at hsq
  have hsin := sin_step_lower N (l - k) (by omega) (by omega)
  have hpos : (0 : ℝ) < 2 / (N : ℝ) := by positivity
  have hsin2 : (2 / (N : ℝ)) ^ 2 ≤ Real.sin (Real.pi * ((l - k : Nat) : ℝ) / (N : ℝ)) ^ 2 :=
    pow_le_pow_left₀ (le_of_lt hpos) hsin 2
  have hkey : (2 : ℝ) ≤ ((S : ℝ) / 2 - 1) ^ 2 * (4 * (2 / (N : ℝ)) ^ 2) := by
    rw [div_pow]
    have hN2 : (0 : ℝ) < (N : ℝ) ^ 2 := by positivity
    have : ((S : ℝ) / 2 - 1) ^ 2 * (4 * (2 ^ 2 / (N : ℝ) ^ 2)) =
        (4 * ((S : ℝ) - 2) ^ 2) / (N : ℝ) ^ 2 := by
      field_simp
      ring
    rw [this, le_div_iff₀ hN2]
    nlinarith
  have hmono : ((S : ℝ) / 2 - 1) ^ 2 * (4 * (2 / (N : ℝ)) ^ 2) ≤
      ((S : ℝ) / 2 - 1) ^ 2 *
        (4 * Real.sin (Real.pi * ((l - k : Nat) : ℝ) / (N : ℝ)) ^ 2) := by
    apply mul_le_mul_of_nonneg_left _ (sq_nonneg _)
    linarith
  linarith

theorem calculatePinCoords_nodup (S N : Nat) (hN : N * N ≤ 2 * ((S - 2) * (S - 2))) :
    (calculatePinCoords S N).Nodup := by
  unfold calculatePinCoords
  apply List.Nodup.map_on _ (List.nodup_range N)
  intro k hk l hl heq
  rw [List.mem_range] at hk hl
  rcases Nat.lt_trichotomy k l with h | h | h
  · exact absurd heq (pinCoord_ne S N k l h hl hN)
  · exact h
  · exact absurd heq.symm (pinCoord_ne S N l k h hk hN)

theorem small_angle_floor (i : Nat) (hi0 : 1 ≤ i) (hi2 : i ≤ 2) :
    pinCoord 20 300 i = ⟨18, 10⟩ := by
  have hpi := Real.pi_pos
  have hpi4 := Real.pi_le_four
  have hi0r : (1 : ℝ) ≤ (i : ℝ) := by exact_mod_cast hi0
  have hi2r : (i : ℝ) ≤ 2 := by exact_mod_cast hi2
  have ha : pinAngle 300 i = 2 * Real.pi * (i : ℝ) / 300 := by
    unfold pinAngle; norm_num
  have hapos : 0 < pinAngle 300 i := by rw [ha]; positivity
  have hale : pinAngle 300 i ≤ 16 / 300 := by
    rw [ha, div_le_div_iff_of_pos_right (by norm_num : (0 : ℝ) < 300)]
    nlinarith
  have hsin0 : 0 ≤ Real.sin (pinAngle 300 i) :=
    Real.sin_nonneg_of_nonneg_of_le_pi (le_of_lt hapos) (by linarith [Real.pi_gt_three])
  have hsin1 : Real.sin (pinAngle 300 i) < pinAngle 300 i := Real.sin_lt hapos
  have hcos0 : 1 - pinAngle 300 i ^ 2 / 2 ≤ Real.cos (pinAngle 300 i) :=
    Real.one_sub_sq_div_two_le_cos
  have hcos1 : Real.cos (pinAngle 300 i) < 1 := by
    refine lt_of_le_of_ne (Real.cos_le_one _) ?_
    intro h1
    have := (Real.cos_eq_one_iff_of_lt_of_lt (by linarith) (by linarith [Real.pi_gt_three])).1 h1
    linarith
  have hx : ⌊((20 : Nat) : ℝ) / 2 + (((20 : Nat) : ℝ) / 2 - 1) * Real.cos (pinAngle 300 i)⌋ =
      18 := by
    rw [Int.floor_eq_iff]
    push_cast
    constructor
    · nlinarith
    · linarith
  have hy : ⌊((20 : Nat) : ℝ) / 2 + (((20 : Nat) : ℝ) / 2 - 1) * Real.sin (pinAngle 300 i)⌋ =
      10 := by
    rw [Int.floor_eq_iff]
    push_cast
    constructor
    · linarith
    · linarith
  unfold pinCoord
  rw [hx, hy]

/-- C13 (as stated, refuted): for a 20 x 20 image and the 300 pins of the source
(`300 ≥ 2 * MIN_DISTANCE + 1`), pins 1 and 2 both get the coordinate `(18, 10)`, so the
coordinates are not pairwise distinct. -/
theorem pins_collide_on_small_image :
    2 * MIN_DISTANCE + 1 ≤ PINS ∧
    (calculatePinCoords 20 PINS).getD 1 ⟨0, 0⟩ = ⟨18, 10⟩ ∧
    (calculatePinCoords 20 PINS).getD 2 ⟨0, 0⟩ = ⟨18, 10⟩ ∧
    ¬ (calculatePinCoords 20 PINS).Nodup := by
  have h1 : (calculatePinCoords 20 PINS).getD 1 ⟨0, 0⟩ = ⟨18, 10⟩ := by
    rw [calculatePinCoords_getD 20 PINS 1 (by decide)]
    exact small_angle_floor 1 (by decide) (by decide)
  have h2 : (calculatePinCoords 20 PINS).getD 2 ⟨0, 0⟩ = ⟨18, 10⟩ := by
    rw [calculatePinCoords_getD 20 PINS 2 (by decide)]
    exact small_angle_floor 2 (by decide) (by decide)
  refine ⟨by decide, h1, h2, ?_⟩
  intro hnd
  have hlen : (calculatePinCoords 20 PINS).length = 300 := calculatePinCoords_length 20 PINS
  have e1 : (calculatePinCoords 20 PINS)[1]? = some ⟨18, 10⟩ := by
    rw [List.getD_eq_getElem?_getD, List.getElem?_eq_getElem (by rw [hlen]; decide)] at h1
    rw [List.getElem?_eq_getElem (by rw [hlen]; decide)]
    exact congrArg some h1
  have e2 : (calculatePinCoords 20 PINS)[2]? = some ⟨18, 10⟩ := by
    rw [List.getD_eq_getElem?_getD, List.getElem?_eq_getElem (by rw [hlen]; decide)] at h2
    rw [List.getElem?_eq_getElem (by rw [hlen]; decide)]
    exact congrArg some h2
  exact (List.nodup_iff_getElem?_ne_getElem?.1 hnd) 1 2 (by decide) (by rw [hlen]; decide)
    (e1.trans e2.symm)

/-- C13 (amended): for every side length `S` and pin count `N` (doubles as reals),
`calculatePinCoords` produces exactly `N` coordinates, the one of pin `k` being
`(floor(S/2 + (S/2 - 1) * cos(2*pi*k/N)), floor(S/2 + (S/2 - 1) * sin(2*pi*k/N)))`; they are
pairwise distinct whenever `N * N ≤ 2 * (S - 2) * (S - 2)`. -/
theorem pin_coords_formula_and_distinctness (S N : Nat) :
    (calculatePinCoords S N).length = N ∧
    (∀ k, k < N → (calculatePinCoords S N).getD k ⟨0, 0⟩ =
      ⟨⌊(S : ℝ) / 2 + ((S : ℝ) / 2 - 1) * Real.cos (2 * Real.pi * (k : ℝ) / (N : ℝ))⌋,
        ⌊(S : ℝ) / 2 + ((S : ℝ) / 2 - 1) * Real.sin (2 * Real.pi * (k : ℝ) / (N : ℝ))⌋⟩) ∧
    (N * N ≤ 2 * ((S - 2) * (S - 2)) → (calculatePinCoords S N).Nodup) :=
  ⟨calculatePinCoords_length S N,
    fun k hk => by rw [calculatePinCoords_getD S N k hk]; rfl,
    calculatePinCoords_nodup S N⟩

/-! ## Pin coordinates and footprints stay inside the image -/

theorem pinCoord_bounds (S N i : Nat) (hS : 2 ≤ S) :
    1 ≤ (pinCoord S N i).x ∧ (pinCoord S N i).x ≤ (S : Int) - 1 ∧
    1 ≤ (pinCoord S N i).y ∧ (pinCoord S N i).y ≤ (S : Int) - 1 := by
  have hr : (0 : ℝ) ≤ (S : ℝ) / 2 - 1 := by
    have : (2 : ℝ) ≤ (S : ℝ) := by exact_mod_cast hS
    linarith
  have hc1 := Real.neg_one_le_cos (pinAngle N i)
  have hc2 := Real.cos_le_one (pinAngle N i)
  have hs1 := Real.neg_one_le_sin (pinAngle N i)
  have hs2 := Real.sin_le_one (pinAngle N i)
  have key : ∀ t : ℝ, -1 ≤ t → t ≤ 1 →
      1 ≤ ⌊(S : ℝ) / 2 + ((S : ℝ) / 2 - 1) * t⌋ ∧
      ⌊(S : ℝ) / 2 + ((S : ℝ) / 2 - 1) * t⌋ ≤ (S : Int) - 1 := by
    intro t ht1 ht2
    constructor
    · rw [Int.le_floor]
      push_cast
      nlinarith
    · have : ⌊(S : ℝ) / 2 + ((S : ℝ) / 2 - 1) * t⌋ < (S : Int) := by
        rw [Int.floor_lt]
        push_cast
        nlinarith
      omega
  exact ⟨(key _ hc1 hc2).1, (key _ hc1 hc2).2, (key _ hs1 hs2).1, (key _ hs1 hs2).2⟩

theorem lineSamples_bounds (a0 a1 : Int) (d : Nat) :
    ∀ v ∈ lineSamples a0 a1 d, min a0 a1 ≤ v ∧ v ≤ max a0 a1 := by
  intro v hv
  unfold lineSamples at hv
  obtain ⟨k, hk, rfl⟩ := List.mem_map.1 hv
  rw [List.mem_range] at hk
  have hd : (0 : Int) < (d : Int) := by omega
  have hkd : (k : Int) < (d : Int) := by exact_mod_cast hk
  have hk0 : (0 : Int) ≤ (k : Int) := Int.ofNat_nonneg k
  rcases le_total a0 a1 with h | h
  · have h1 : 0 ≤ (k : Int) * (a1 - a0) / (d : Int) :=
      Int.ediv_nonneg (mul_nonneg hk0 (by omega)) (le_of_lt hd)
    have h2 : (k : Int) * (a1 - a0) / (d : Int) ≤ a1 - a0 := by
      have hle : (k : Int) * (a1 - a0) ≤ (d : Int) * (a1 - a0) :=
        mul_le_mul_of_nonneg_right (le_of_lt hkd) (by omega)
      have := Int.ediv_le_ediv hd hle
      rwa [Int.mul_ediv_cancel_left _ (ne_of_gt hd)] at this
    rw [min_eq_left h, max_eq_right h]
    constructor <;> omega
  · have h1 : (k : Int) * (a1 - a0) / (d : Int) ≤ 0 := by
      have hle : (k : Int) * (a1 - a0) ≤ 0 := mul_nonpos_of_nonneg_of_nonpos hk0 (by omega)
      have := Int.ediv_le_ediv hd hle
      simpa using this
    have h2 : a1 - a0 ≤ (k : Int) * (a1 - a0) / (d : Int) := by
      have hle : (d : Int) * (a1 - a0) ≤ (k : Int) * (a1 - a0) :=
        mul_le_mul_of_nonpos_right (le_of_lt hkd) (by omega)
      have := Int.ediv_le_ediv hd hle
      rwa [Int.mul_ediv_cancel_left _ (ne_of_gt hd)] at this
    rw [min_eq_right h, max_eq_left h]
    constructor <;> omega

theorem matIndex_of_bounds (S : Nat) (r c : Int) (hr0 : 0 ≤ r) (hr : r ≤ (S : Int) - 1)
    (hc0 : 0 ≤ c) (hc : c ≤ (S : Int) - 1) :
    ∃ k, matIndex S r c = some k ∧ k < S * S := by
  refine ⟨r.toNat * S + c.toNat, ?_, pair_index_lt S _ _ (by omega) (by omega)⟩
  unfold matIndex
  rw [if_pos ⟨hr0, by omega, hc0, by omega⟩]

theorem cache_entry_bounds (p : Params) (S : Nat) (hS : 2 ≤ S) (a b : Nat)
    (ha : a < p.PINS) (hb : b < p.PINS) :
    ∀ rc ∈ ((precalculateAllPotentialLines p (calculatePinCoords S p.PINS)).lineCacheY.getD
        (a * p.PINS + b) []).zip
      ((precalculateAllPotentialLines p (calculatePinCoords S p.PINS)).lineCacheX.getD
        (a * p.PINS + b) []),
      1 ≤ rc.1 ∧ rc.1 ≤ (S : Int) - 1 ∧ 1 ≤ rc.2 ∧ rc.2 ≤ (S : Int) - 1 := by
  intro rc hrc
  obtain ⟨hy, hx⟩ := cache_content p (calculatePinCoords S p.PINS) a b ha hb
  rw [hy, hx] at hrc
  by_cases hst : stored p a b
  · rw [if_pos hst, if_pos hst] at hrc
    have hmin : min a b < p.PINS := lt_of_le_of_lt (min_le_left a b) ha
    have hmax : max a b < p.PINS := max_lt ha hb
    have h1 := List.of_mem_zip hrc
    unfold footprintY footprintX at h1
    rw [calculatePinCoords_getD S p.PINS _ hmin, calculatePinCoords_getD S p.PINS _ hmax] at h1
    have by1 := lineSamples_bounds _ _ _ rc.1 h1.1
    have bx1 := lineSamples_bounds _ _ _ rc.2 h1.2
    have p0 := pinCoord_bounds S p.PINS (min a b) hS
    have p1 := pinCoord_bounds S p.PINS (max a b) hS
    refine ⟨?_, ?_, ?_, ?_⟩
    · exact le_trans (le_min p0.2.2.1 p1.2.2.1) by1.1
    · exact le_trans by1.2 (max_le p0.2.2.2 p1.2.2.2)
    · exact le_trans (le_min p0.1 p1.1) bx1.1
    · exact le_trans bx1.2 (max_le p0.2.1 p1.2.1)
  · rw [if_neg hst, if_neg hst] at hrc
    simp at hrc

theorem runRounds_error_length (p : Params) (g : StringArtGenerator) (n : Nat) (st : GenState) :
    (runRounds p g n st).error.length = st.error.length := by
  induction n with
  | zero => rfl
  | succ n ih =>
    rw [runRounds_succ]
    cases h : round p g (runRounds p g n st) with
    | none => exact ih
    | some s1 =>
      show s1.error.length = _
      rw [(round_error_le p g _ s1 h).1, ih]

/-- C19: for a side length `S ≥ 2` (doubles as reals), every pin coordinate lies in
`[1, S - 1]`; every sample of every cache entry lies in `[1, S - 1]`, hence in `[0, S - 1]`, in
both components; and in every round every footprint entry that `getLineErr` or the update loop
can address is a position inside the `S * S` residual buffer. -/
theorem accesses_in_bounds (p : Params) (S : Nat) (sourceImage : List Nat) (hS : 2 ≤ S)
    (himg : sourceImage.length = S * S) :
    (∀ i, i < p.PINS →
      1 ≤ ((calculatePinCoords S p.PINS).getD i ⟨0, 0⟩).x ∧
      ((calculatePinCoords S p.PINS).getD i ⟨0, 0⟩).x ≤ (S : Int) - 1 ∧
      1 ≤ ((calculatePinCoords S p.PINS).getD i ⟨0, 0⟩).y ∧
      ((calculatePinCoords S p.PINS).getD i ⟨0, 0⟩).y ≤ (S : Int) - 1) ∧
    (∀ a b, a < p.PINS → b < p.PINS →
      ∀ rc ∈ ((realGenerator p S sourceImage).lineCacheY.getD (a * p.PINS + b) []).zip
          ((realGenerator p S sourceImage).lineCacheX.getD (a * p.PINS + b) []),
        0 ≤ rc.1 ∧ rc.1 ≤ (S : Int) - 1 ∧ 0 ≤ rc.2 ∧ rc.2 ≤ (S : Int) - 1) ∧
    (∀ n pin, pin < p.PINS →
      ∀ rc ∈ winningFootprint p (realGenerator p S sourceImage)
          (runRounds p (realGenerator p S sourceImage) n
            (initState (realGenerator p S sourceImage))).currentPin pin,
        ∃ k, matIndex (realGenerator p S sourceImage).imgSize rc.1 rc.2 = some k ∧
          k < (runRounds p (realGenerator p S sourceImage) n
            (initState (realGenerator p S sourceImage))).error.length) := by
  refine ⟨?_, ?_, ?_⟩
  · intro i hi
    rw [calculatePinCoords_getD S p.PINS i hi]
    exact pinCoord_bounds S p.PINS i hS
  · intro a b ha hb rc hrc
    have := cache_entry_bounds p S hS a b ha hb rc hrc
    omega
  · intro n pin hpin rc hrc
    have hP : 0 < p.PINS := by omega
    have hseq := seqInv_runRounds p (realGenerator p S sourceImage) n
      (initState (realGenerator p S sourceImage)) (seqInv_init p _ hP)
    have hb := cache_entry_bounds p S hS pin _ hpin hseq.1 rc hrc
    have hlen : (runRounds p (realGenerator p S sourceImage) n
        (initState (realGenerator p S sourceImage))).error.length = S * S := by
      rw [runRounds_error_length]
      simp [initState, realGenerator, mkGenerator, himg]
    rw [hlen]
    exact matIndex_of_bounds S rc.1 rc.2 (by omega) hb.2.1 (by omega) hb.2.2.2

theorem accesses_in_bounds_witness :
    2 ≤ 8 ∧ black8.length = 8 * 8 ∧
    ((∀ i, i < params8.PINS →
      1 ≤ ((calculatePinCoords 8 params8.PINS).getD i ⟨0, 0⟩).x ∧
      ((calculatePinCoords 8 params8.PINS).getD i ⟨0, 0⟩).x ≤ ((8 : Nat) : Int) - 1 ∧
      1 ≤ ((calculatePinCoords 8 params8.PINS).getD i ⟨0, 0⟩).y ∧
      ((calculatePinCoords 8 params8.PINS).getD i ⟨0, 0⟩).y ≤ ((8 : Nat) : Int) - 1) ∧
    (∀ a b, a < params8.PINS → b < params8.PINS →
      ∀ rc ∈ ((realGenerator params8 8 black8).lineCacheY.getD (a * params8.PINS + b) []).zip
          ((realGenerator params8 8 black8).lineCacheX.getD (a * params8.PINS + b) []),
        0 ≤ rc.1 ∧ rc.1 ≤ ((8 : Nat) : Int) - 1 ∧ 0 ≤ rc.2 ∧ rc.2 ≤ ((8 : Nat) : Int) - 1) ∧
    (∀ n pin, pin < params8.PINS →
      ∀ rc ∈ winningFootprint params8 (realGenerator params8 8 black8)
          (runRounds params8 (realGenerator params8 8 black8) n
            (initState (realGenerator params8 8 black8))).currentPin pin,
        ∃ k, matIndex (realGenerator params8 8 black8).imgSize rc.1 rc.2 = some k ∧
          k < (runRounds params8 (realGenerator params8 8 black8) n
            (initState (realGenerator params8 8 black8))).error.length)) :=
  ⟨by decide, by decide, accesses_in_bounds params8 8 black8 (by decide) (by decide)⟩

end StringArt
